import Mathlib

/-!
Verification of core components of a modular reverse proxy written in Rust.
Bytes and Unicode code points are modelled as natural numbers; Rust strings
are modelled as lists of code points, byte buffers as lists of bytes.
-/

namespace RProxy

/-- Convert a Lean string literal to its list of code points (used only to
name concrete strings from the source, e.g. header names). -/
def str2cp (s : String) : List Nat := s.data.map Char.toNat

/-- Unicode white-space test, as used by Rust char whitespace checks
(the White_Space property). -/
def isWs (c : Nat) : Bool :=
  (9 ≤ c && c ≤ 13) || c == 32 || c == 133 || c == 160 || c == 5760 ||
  (8192 ≤ c && c ≤ 8202) || c == 8232 || c == 8233 || c == 8239 || c == 8287 || c == 12288

/-- Rust str trim: remove leading and trailing white space. -/
def trim (s : List Nat) : List Nat :=
  ((s.dropWhile (fun c => isWs c)).reverse.dropWhile (fun c => isWs c)).reverse

/-- Remove one trailing carriage return, if present. -/
def stripCR (s : List Nat) : List Nat :=
  match s.reverse with
  | 13 :: t => t.reverse
  | _ => s

/-- Split a code-point list at every line feed (the segments keep no 10). -/
def splitNL : List Nat → List (List Nat)
  | [] => [[]]
  | c :: t =>
    if c = 10 then [] :: splitNL t
    else
      match splitNL t with
      | [] => [[c]]
      | s :: ss => (c :: s) :: ss

/-- Rust str lines: split at line feeds, strip one carriage return from each
segment that was terminated by a line feed, drop a final empty segment. -/
def lines (s : List Nat) : List (List Nat) :=
  (splitNL s).dropLast.map stripCR ++ (match (splitNL s).getLast? with
    | some [] => []
    | some l => [l]
    | none => [])

theorem length_dropWhile_le {α : Type} (p : α → Bool) (l : List α) :
    (l.dropWhile p).length ≤ l.length := by
  induction l with
  | nil => simp [List.dropWhile]
  | cons a t ih =>
    simp only [List.dropWhile]
    cases p a <;> simp <;> omega

/-- Rust str split_whitespace, token-at-a-time form: maximal runs of
non-white-space characters. -/
def splitWsTW : List Nat → List (List Nat)
  | [] => []
  | c :: t =>
    if isWs c then splitWsTW t
    else (c :: t.takeWhile (fun x => ¬ isWs x)) :: splitWsTW (t.dropWhile (fun x => ¬ isWs x))
termination_by s => s.length
decreasing_by
  all_goals simp only [List.length_cons]
  · omega
  · have h := length_dropWhile_le (fun x => decide ¬ isWs x = true) t
    omega

/-- Accumulator form of split_whitespace (structurally recursive); proved
equal to splitWsTW below. -/
def splitWsAux : List Nat → List Nat → List (List Nat)
  | acc, [] => if acc = [] then [] else [acc.reverse]
  | acc, c :: t =>
    if isWs c then
      (if acc = [] then splitWsAux [] t else acc.reverse :: splitWsAux [] t)
    else splitWsAux (c :: acc) t

/-- Rust str split_whitespace: maximal tokens of non-white-space characters. -/
def splitWs (s : List Nat) : List (List Nat) := splitWsAux [] s

/-- Rust str split_once: split at the first occurrence of a separator. -/
def splitOnce (sep : Nat) : List Nat → Option (List Nat × List Nat)
  | [] => none
  | c :: t =>
    if c = sep then some ([], t)
    else (splitOnce sep t).map (fun p => (c :: p.1, p.2))

/-- ASCII lower-casing of a single code point. -/
def lowerAscii (c : Nat) : Nat := if 65 ≤ c && c ≤ 90 then c + 32 else c

/-- Rust eq_ignore_ascii_case on strings. -/
def eqIgnoreAsciiCase (a b : List Nat) : Bool :=
  a.map lowerAscii == b.map lowerAscii

/-- Rust parse to usize (64-bit): optional leading plus sign, decimal digits,
error on empty digits or overflow. -/
def parseU64 (s : List Nat) : Option Nat :=
  let digits := match s with
    | 43 :: t => t
    | _ => s
  if digits.isEmpty then none
  else if digits.all (fun c => 48 ≤ c && c ≤ 57) then
    let v := digits.foldl (fun a c => a * 10 + (c - 48)) 0
    if v < 2 ^ 64 then some v else none
  else none

/-- Rust u64 from_str_radix 16: optional leading plus sign, hex digits,
error on empty digits or overflow. -/
def hexDigit (c : Nat) : Option Nat :=
  if 48 ≤ c && c ≤ 57 then some (c - 48)
  else if 97 ≤ c && c ≤ 102 then some (c - 87)
  else if 65 ≤ c && c ≤ 70 then some (c - 55)
  else none

def parseHexU64 (s : List Nat) : Option Nat :=
  let digits := match s with
    | 43 :: t => t
    | _ => s
  if digits.isEmpty then none
  else if digits.all (fun c => (hexDigit c).isSome) then
    let v := digits.foldl (fun a c => a * 16 + ((hexDigit c).getD 0)) 0
    if v < 2 ^ 64 then some v else none
  else none

/-! ## UTF-8 encoding and decoding (Rust String bytes / from_utf8) -/

/-- A Unicode scalar value: in range and not a surrogate. -/
def Scalar (c : Nat) : Prop := c < 0x110000 ∧ ¬ (0xD800 ≤ c ∧ c ≤ 0xDFFF)

instance (c : Nat) : Decidable (Scalar c) := by unfold Scalar; infer_instance

/-- UTF-8 encoding of one scalar value. -/
def utf8EncodeChar (c : Nat) : List Nat :=
  if c < 0x80 then [c]
  else if c < 0x800 then [0xC0 + c / 64, 0x80 + c % 64]
  else if c < 0x10000 then [0xE0 + c / 4096, 0x80 + (c / 64) % 64, 0x80 + c % 64]
  else [0xF0 + c / 262144, 0x80 + (c / 4096) % 64, 0x80 + (c / 64) % 64, 0x80 + c % 64]

/-- UTF-8 encoding of a string of scalar values. -/
def utf8Encode (s : List Nat) : List Nat := (s.map utf8EncodeChar).flatten

mutual

/-- Strict UTF-8 decoding, mirroring Rust from_utf8 (rejects overlong forms,
surrogates and out-of-range sequences). Mutual with the per-length
continuation checks utf8Dec2, utf8Dec3 and utf8Dec4 below. -/
def utf8Decode : List Nat → Option (List Nat)
  | [] => some []
  | b :: rest =>
    if b < 0x80 then (utf8Decode rest).map (fun t => b :: t)
    else if b < 0xC2 then none
    else if b < 0xE0 then utf8Dec2 b rest
    else if b < 0xF0 then utf8Dec3 b rest
    else if b < 0xF5 then utf8Dec4 b rest
    else none

def utf8Dec2 (b : Nat) : List Nat → Option (List Nat)
  | b1 :: r =>
    if 0x80 ≤ b1 && b1 < 0xC0 then
      (utf8Decode r).map (fun t => ((b - 0xC0) * 64 + (b1 - 0x80)) :: t)
    else none
  | [] => none

def utf8Dec3 (b : Nat) : List Nat → Option (List Nat)
  | b1 :: b2 :: r =>
    if (if b = 0xE0 then 0xA0 else 0x80) ≤ b1 && b1 ≤ (if b = 0xED then 0x9F else 0xBF)
        && 0x80 ≤ b2 && b2 < 0xC0 then
      (utf8Decode r).map
        (fun t => ((b - 0xE0) * 4096 + (b1 - 0x80) * 64 + (b2 - 0x80)) :: t)
    else none
  | _ => none

def utf8Dec4 (b : Nat) : List Nat → Option (List Nat)
  | b1 :: b2 :: b3 :: r =>
    if (if b = 0xF0 then 0x90 else 0x80) ≤ b1 && b1 ≤ (if b = 0xF4 then 0x8F else 0xBF)
        && 0x80 ≤ b2 && b2 < 0xC0 && 0x80 ≤ b3 && b3 < 0xC0 then
      (utf8Decode r).map
        (fun t =>
          ((b - 0xF0) * 262144 + (b1 - 0x80) * 4096 + (b2 - 0x80) * 64 + (b3 - 0x80)) :: t)
    else none
  | _ => none

end

/-! ## HTTP codec (src/http/mod.rs, request.rs, response.rs) -/

/-- Rust find_hdr_end: index of the first CRLF CRLF in a byte buffer (the
scan window is the four bytes starting at the current index; shorter
windows never match, as in the Rust bound). -/
def findHdrEnd : List Nat → Option Nat
  | [] => none
  | c :: t =>
    if (c :: t).take 4 = [13, 10, 13, 10] then some 0
    else (findHdrEnd t).map (fun i => i + 1)

/-- Rust get_hdr: first header whose name matches ASCII-case-insensitively. -/
def getHdr (h : List (List Nat × List Nat)) (n : List Nat) : Option (List Nat) :=
  match h with
  | [] => none
  | (k, v) :: t => if eqIgnoreAsciiCase k n then some v else getHdr t n

/-- Rust raw_hdr: scan raw header text line by line for a name, returning the
trimmed value of the first match. -/
def rawHdrLines (ls : List (List Nat)) (n : List Nat) : Option (List Nat) :=
  match ls with
  | [] => none
  | l :: t =>
    match splitOnce 58 l with
    | some (k, v) => if eqIgnoreAsciiCase (trim k) n then some (trim v) else rawHdrLines t n
    | none => rawHdrLines t n

def rawHdr (t n : List Nat) : Option (List Nat) := rawHdrLines (lines t) n

structure HttpRequest where
  method : List Nat
  path : List Nat
  version : List Nat
  headers : List (List Nat × List Nat)
  body : List Nat
deriving DecidableEq

structure HttpResponse where
  version : List Nat
  status_code : Nat
  status_text : List Nat
  headers : List (List Nat × List Nat)
  body : List Nat
deriving DecidableEq

/-- Rust HttpResponse error: canned error response factory. -/
def HttpResponse.error (c : Nat) (m : List Nat) : HttpResponse :=
  let t :=
    if c = 400 then str2cp "Bad Request"
    else if c = 403 then str2cp "Forbidden"
    else if c = 411 then str2cp "Length Required"
    else if c = 413 then str2cp "Payload Too Large"
    else if c = 429 then str2cp "Too Many Requests"
    else if c = 431 then str2cp "Request Header Fields Too Large"
    else if c = 502 then str2cp "Bad Gateway"
    else if c = 503 then str2cp "Service Unavailable"
    else if c = 504 then str2cp "Gateway Timeout"
    else str2cp "Error"
  { version := str2cp "HTTP/1.1", status_code := c, status_text := t,
    headers := [(str2cp "Content-Type", str2cp "text/plain"),
                (str2cp "Content-Length", str2cp (toString m.length)),
                (str2cp "Connection", str2cp "close")],
    body := m }

def HttpResponse.get_header (r : HttpResponse) (n : List Nat) : Option (List Nat) :=
  getHdr r.headers n

def HttpRequest.get_header (r : HttpRequest) (n : List Nat) : Option (List Nat) :=
  getHdr r.headers n

/-- Header lines of a parsed request: split each line at the first colon and
trim both sides; stop at an empty line; skip lines without a colon. -/
def parseHeaderLines : List (List Nat) → List (List Nat × List Nat)
  | [] => []
  | ln :: t =>
    if ln = [] then []
    else
      match splitOnce 58 ln with
      | some (k, v) => (trim k, trim v) :: parseHeaderLines t
      | none => parseHeaderLines t

def methodOk (m : List Nat) : Bool :=
  m == str2cp "GET" || m == str2cp "POST" || m == str2cp "PUT" || m == str2cp "DELETE" ||
  m == str2cp "PATCH" || m == str2cp "HEAD" || m == str2cp "OPTIONS" ||
  m == str2cp "CONNECT" || m == str2cp "TRACE"

/-- Rust HttpRequest parse. -/
def HttpRequest.parse (r : List Nat) : Option HttpRequest :=
  match findHdrEnd r with
  | none => none
  | some e =>
    match utf8Decode (r.take e) with
    | none => none
    | some t =>
      match lines t with
      | [] => none
      | rl :: rest =>
        match splitWs rl with
        | m :: path :: v :: extra =>
          if ¬ extra.isEmpty then none
          else if ¬ methodOk m then none
          else if (utf8Encode path).any (fun b => b < 0x20 || b == 0x7F) then none
          else if ¬ (v = str2cp "HTTP/1.0" ∨ v = str2cp "HTTP/1.1") then none
          else
            let h := parseHeaderLines rest
            let s := e + 4
            let cl := (getHdr h (str2cp "Content-Length")).bind parseU64
            let b :=
              match cl with
              | some len => if s < r.length then (r.drop s).take len else []
              | none => []
            some ⟨m, path, v, h, b⟩
        | _ => none

/-- Rust HttpRequest to_bytes. -/
def HttpRequest.to_bytes (q : HttpRequest) : List Nat :=
  utf8Encode (q.method ++ [32] ++ q.path ++ [32] ++ q.version ++ [13, 10]
    ++ (q.headers.map (fun h => h.1 ++ [58, 32] ++ h.2 ++ [13, 10])).flatten ++ [13, 10])
  ++ q.body

/-! ## Incremental HTTP reader (src/http/mod.rs read_http_message) -/

def MAX_HEADER_SIZE : Nat := 65536
def MAX_BODY_SIZE : Nat := 16 * 1024 * 1024

/-- Rust find_zero_chunk: detect a terminating zero chunk while validating
every intermediate chunk frame. -/
def findZeroChunkLoop (d : List Nat) (i : Nat) : Bool :=
  if _hlt : i < d.length then
    let chunk_start := i
    let size_end := i + ((d.drop i).takeWhile (fun b => b ≠ 13)).length
    if size_end + 1 ≥ d.length then false
    else if (d.drop (size_end + 1)).take 1 ≠ [10] then false
    else
      match utf8Decode ((d.drop chunk_start).take (size_end - chunk_start)) with
      | none => false
      | some sizeTxt =>
        let sizeStr := trim (sizeTxt.takeWhile (fun c => c ≠ 59))
        match parseHexU64 sizeStr with
        | none => false
        | some chunk_size =>
          if chunk_size = 0 then
            let after := size_end + 2
            ((after ≤ d.length && (d.drop after).take 2 = [13, 10]) || after = d.length)
          else
            let j := size_end + 2 + chunk_size
            if j + 1 ≥ d.length then false
            else if (d.drop j).take 2 ≠ [13, 10] then false
            else findZeroChunkLoop d (j + 2)
  else false
termination_by d.length - i
decreasing_by
  have h1 : i ≤ i + ((d.drop i).takeWhile (fun b => b ≠ 13)).length := by omega
  omega

def findZeroChunk (d : List Nat) : Bool :=
  if d.length < 5 then false else findZeroChunkLoop d 0

/-- One unit of reader input: a successful read of a (possibly empty) chunk,
a timeout or would-block error, or a fatal I/O error. -/
inductive RdEvt
  | chunk (data : List Nat)
  | timedOut
  | fatal (msg : String)

inductive ReadResult
  | Ok (d : List Nat)
  | TimedOut
  | Error (msg : String)
deriving DecidableEq

/-- Outcome of the read loop before the final bookkeeping. -/
inductive LoopOut
  | finished (d : List Nat) (hdrDone : Bool) (bodyStart : Nat) (contentLen : Option Nat)
      (timedOut : Bool)
  | failed (msg : String)

/-- Body-phase checks of one loop iteration (run once the headers are done).
Returns some outcome to leave the loop, or none to keep reading. -/
def rhmBody (d : List Nat) (bodyStart : Nat) (contentLen : Option Nat) (isChunked : Bool) :
    Option LoopOut :=
  let bodyLen := d.length - bodyStart
  if bodyLen > MAX_BODY_SIZE then some (.failed "body too large")
  else
    match contentLen with
    | some cl => if bodyLen ≥ cl then some (.finished d true bodyStart contentLen false)
                 else none
    | none =>
      if isChunked ∧ findZeroChunk (d.drop bodyStart) then
        some (.finished d true bodyStart contentLen false)
      else none

/-- The read loop of read_http_message over a list of reader events; the end
of the event list stands for end of stream (read returning zero). -/
def rhmLoop : List RdEvt → List Nat → Bool → Nat → Option Nat → Bool → LoopOut
  | [], d, hdrDone, bodyStart, contentLen, _ => .finished d hdrDone bodyStart contentLen false
  | .timedOut :: _, d, hdrDone, bodyStart, contentLen, _ =>
      .finished d hdrDone bodyStart contentLen true
  | .fatal m :: _, _, _, _, _, _ => .failed m
  | .chunk c :: rest, d, hdrDone, bodyStart, contentLen, isChunked =>
    if c.isEmpty then .finished d hdrDone bodyStart contentLen false
    else
      let d' := d ++ c
      if hdrDone then
        match rhmBody d' bodyStart contentLen isChunked with
        | some out => out
        | none => rhmLoop rest d' true bodyStart contentLen isChunked
      else
        if d'.length > MAX_HEADER_SIZE then .failed "headers too large"
        else
          match findHdrEnd d' with
          | none => rhmLoop rest d' false bodyStart contentLen isChunked
          | some p =>
            let bodyStart' := p + 4
            match utf8Decode (d'.take p) with
            | none => .failed "invalid header encoding"
            | some hdrText =>
              let contentLen' := (rawHdr hdrText (str2cp "Content-Length")).bind parseU64
              let isChunked' :=
                match rawHdr hdrText (str2cp "Transfer-Encoding") with
                | some v => eqIgnoreAsciiCase v (str2cp "chunked")
                | none => false
              match contentLen' with
              | some cl =>
                if cl > MAX_BODY_SIZE then .failed "body too large"
                else
                  match rhmBody d' bodyStart' contentLen' isChunked' with
                  | some out => out
                  | none => rhmLoop rest d' true bodyStart' contentLen' isChunked'
              | none =>
                if ¬ isChunked' then .finished d' true bodyStart' none false
                else
                  match rhmBody d' bodyStart' none isChunked' with
                  | some out => out
                  | none => rhmLoop rest d' true bodyStart' none isChunked'

/-- Rust read_http_message: run the loop, then apply the final bookkeeping. -/
def read_http_message (events : List RdEvt) : ReadResult :=
  match rhmLoop events [] false 0 none false with
  | .failed m => .Error m
  | .finished d hdrDone bodyStart contentLen timedOut =>
    if d.isEmpty then (if timedOut then .TimedOut else .Error "connection closed")
    else if timedOut && ¬ hdrDone then .TimedOut
    else if timedOut && (match contentLen with
      | some cl => decide (d.length - bodyStart < cl)
      | none => false) then .TimedOut
    else .Ok d

/-- The error-string to status mapping of handle_h1 (src/server.rs). -/
def errorStatus (e : String) : Nat :=
  if e = "headers too large" then 431
  else if e = "body too large" then 413
  else 400

/-! ## Telemetry counters (src/metrics.rs) and the request-accounting paths
of the server (src/server.rs). Counters are u64 and wrap modulo 2 to the 64. -/

structure Counters where
  requests_total : Nat
  requests_ok : Nat
  requests_err : Nat
  latency_sum_ms : Nat
  latency_max_ms : Nat
deriving DecidableEq

def Counters.zero : Counters := ⟨0, 0, 0, 0, 0⟩

def U64 (n : Nat) : Nat := n % 2 ^ 64

def inc_requests (c : Counters) : Counters :=
  { c with requests_total := U64 (c.requests_total + 1) }

def inc_requests_ok (c : Counters) : Counters :=
  { c with requests_ok := U64 (c.requests_ok + 1) }

def inc_requests_err (c : Counters) : Counters :=
  { c with requests_err := U64 (c.requests_err + 1) }

/-- Rust record_latency: add the sample to the sum, and raise the max gauge
via a compare-and-swap loop (sequentially, a plain max). -/
def record_latency (c : Counters) (ms : Nat) : Counters :=
  { c with latency_sum_ms := U64 (c.latency_sum_ms + ms),
           latency_max_ms := max c.latency_max_ms ms }

/-- One client connection as seen by the counter-updating paths of
src/server.rs: rejected while overloaded, failed while reading, timed out,
unparsable, refused with 411, or answered by the pipeline with some status. -/
inductive ConnEvent
  | overload
  | readErr
  | timedOut
  | parseFail
  | lenRequired
  | pipelineDone (status : Nat)

/-- Counter updates of one completed connection (reject_overloaded and
handle_h1 in src/server.rs). -/
def connStep (c : Counters) : ConnEvent → Counters
  | .overload => inc_requests_err c
  | .readErr => inc_requests_err c
  | .timedOut => c
  | .parseFail => inc_requests_err (inc_requests c)
  | .lenRequired => inc_requests_err (inc_requests c)
  | .pipelineDone status =>
    let c := inc_requests c
    if status < 400 then inc_requests_ok c else inc_requests_err c

def runConns (evts : List ConnEvent) : Counters :=
  evts.foldl connStep Counters.zero

def countOverload (evts : List ConnEvent) : Nat :=
  (evts.filter (fun e => match e with | .overload => true | _ => false)).length

def countReadErr (evts : List ConnEvent) : Nat :=
  (evts.filter (fun e => match e with | .readErr => true | _ => false)).length

/-! ## Response cache (src/modules/cache.rs). Time is modelled as an abstract
instant counted in seconds. -/

structure Entry where
  resp : HttpResponse
  exp : Nat
deriving DecidableEq

/-- Lookup in the cache map (HashMap get). -/
def cacheLookup (m : List (List Nat × Entry)) (k : List Nat) : Option Entry :=
  match m with
  | [] => none
  | (k', e) :: t => if k' = k then some e else cacheLookup t k

/-- Insert in the cache map (HashMap insert replaces any entry of the key). -/
def cacheInsert (m : List (List Nat × Entry)) (k : List Nat) (e : Entry) :
    List (List Nat × Entry) :=
  (k, e) :: m.filter (fun p => p.1 ≠ k)

/-- Remove from the cache map (HashMap remove). -/
def cacheRemove (m : List (List Nat × Entry)) (k : List Nat) : List (List Nat × Entry) :=
  m.filter (fun p => p.1 ≠ k)

/-- Rust Cache handle: request-side hook. Returns the updated map and an
optional short-circuit response. -/
def cacheHandle (m : List (List Nat × Entry)) (r : HttpRequest) (now : Nat) :
    List (List Nat × Entry) × Option HttpResponse :=
  if r.method ≠ str2cp "GET" then (m, none)
  else
    match cacheLookup m r.path with
    | some e =>
      if now < e.exp then
        match r.get_header (str2cp "If-None-Match"), e.resp.get_header (str2cp "ETag") with
        | some tag, some etag =>
          if tag = etag then
            (m, some { version := str2cp "HTTP/1.1", status_code := 304,
                       status_text := str2cp "Not Modified",
                       headers := [(str2cp "X-Cache", str2cp "HIT")], body := [] })
          else
            (m, some { e.resp with headers := e.resp.headers ++ [(str2cp "X-Cache", str2cp "HIT")] })
        | _, _ =>
          (m, some { e.resp with headers := e.resp.headers ++ [(str2cp "X-Cache", str2cp "HIT")] })
      else (cacheRemove m r.path, none)
    | none => (m, none)

/-- Rust Cache on_response: response-side hook, admitting entries to the map. -/
def cacheOnResponse (ttl : Nat) (m : List (List Nat × Entry)) (req : HttpRequest)
    (resp : HttpResponse) (now : Nat) : List (List Nat × Entry) :=
  if (resp.get_header (str2cp "X-Cache")).isNone ∧ resp.status_code = 200 then
    cacheInsert m req.path ⟨resp, now + ttl⟩
  else m

/-! ## Circuit breaker (src/modules/circuit_breaker.rs), sequential semantics. -/

def STATE_CLOSED : Nat := 0
def STATE_OPEN : Nat := 1
def STATE_HALF_OPEN : Nat := 2

structure CBState where
  failures : Nat
  state : Nat
  openedAt : Nat
deriving DecidableEq

/-- Rust CircuitBreaker handle, with wall-clock now passed explicitly;
elapsed time saturates at zero as Instant elapsed does. -/
def cbHandle (recovery : Nat) (s : CBState) (now : Nat) : CBState × Option HttpResponse :=
  if s.state = STATE_OPEN then
    let elapsed := now - s.openedAt
    if elapsed ≥ recovery then
      ({ s with state := STATE_HALF_OPEN }, none)
    else
      (s, some (HttpResponse.error 503 (str2cp "Circuit breaker open")))
  else (s, none)

/-- Rust CircuitBreaker on_response, sequential semantics. -/
def cbOnResponse (threshold : Nat) (s : CBState) (status : Nat) (now : Nat) : CBState :=
  if status ≥ 500 then
    let count := s.failures + 1
    let s := { s with failures := count }
    if s.state = STATE_HALF_OPEN then
      { s with state := STATE_OPEN, openedAt := now }
    else if count ≥ threshold then
      if s.state = STATE_CLOSED then { s with state := STATE_OPEN, openedAt := now } else s
    else s
  else
    { s with failures := 0, state := STATE_CLOSED }

/-- A sequential run of request-side calls: returns the final state and the
list of per-request outcomes (the state seen at arrival and the response). -/
def cbRun (recovery : Nat) (s : CBState) : List Nat → CBState × List (Nat × Option HttpResponse)
  | [] => (s, [])
  | now :: rest =>
    let (s', resp) := cbHandle recovery s now
    let (sEnd, outs) := cbRun recovery s' rest
    (sEnd, (s.state, resp) :: outs)

/-- Number of requests admitted (no response produced) while the observed
state was OPEN. -/
def cbOpenAdmits (outs : List (Nat × Option HttpResponse)) : Nat :=
  (outs.filter (fun o => decide (o.1 = STATE_OPEN) && o.2.isNone)).length

/-! ## Backend connection pool (src/pool.rs). Streams are abstracted to a
creation instant plus the outcome its liveness probe would have. -/

def MAX_IDLE_PER_HOST : Nat := 8
def MAX_IDLE_AGE : Nat := 30

structure Pooled where
  created : Nat
  probeOk : Bool
deriving DecidableEq

/-- The pool map: per-address LIFO queues (the Rust Vec, pushed and popped at
the back; we keep the Vec order, the last element is the top). -/
def PoolMap := List ((Nat × Nat) × List Pooled)

def poolQueue (m : PoolMap) (addr : Nat × Nat) : List Pooled :=
  match m with
  | [] => []
  | (a, q) :: t => if a = addr then q else poolQueue t addr

def poolSet (m : PoolMap) (addr : Nat × Nat) (q : List Pooled) : PoolMap :=
  (addr, q) :: m.filter (fun p => p.1 ≠ addr)

/-- Rust ConnPool put: prune stale entries, then push if below the cap. -/
def poolPut (m : PoolMap) (addr : Nat × Nat) (now : Nat) (probeOk : Bool) : PoolMap :=
  let conns := (poolQueue m addr).filter (fun p => now - p.created < MAX_IDLE_AGE)
  if conns.length < MAX_IDLE_PER_HOST then
    poolSet m addr (conns ++ [⟨now, probeOk⟩])
  else poolSet m addr conns

/-- Pop loop of ConnPool get on the reversed queue (the Rust Vec pops at the
back): discard entries over the age cap and entries whose probe fails;
return the first healthy entry and what is left. -/
def popRev (now : Nat) : List Pooled → Option Pooled × List Pooled
  | [] => (none, [])
  | p :: t =>
    if now - p.created > MAX_IDLE_AGE then popRev now t
    else if p.probeOk then (some p, t)
    else popRev now t

def poolPopLoop (now : Nat) (q : List Pooled) : Option Pooled × List Pooled :=
  let (r, rest) := popRev now q.reverse
  (r, rest.reverse)

/-- Rust ConnPool get: pop from the queue of the address; on exhaustion a
fresh connection is made (modelled as the none result). -/
def poolGet (m : PoolMap) (addr : Nat × Nat) (now : Nat) : Option Pooled × PoolMap :=
  let (r, q') := poolPopLoop now (poolQueue m addr)
  (r, poolSet m addr q')

/-- One pool operation of a history. -/
inductive PoolOp
  | put (addr : Nat × Nat) (now : Nat) (probeOk : Bool)
  | get (addr : Nat × Nat) (now : Nat)

def poolStep (m : PoolMap) : PoolOp → PoolMap
  | .put addr now probeOk => poolPut m addr now probeOk
  | .get addr now => (poolGet m addr now).2

def poolRun (ops : List PoolOp) : PoolMap := ops.foldl poolStep []

/-! ## Pipeline (src/modules/mod.rs). A module is its pair of hooks; the
request hook may mutate the request and the context and optionally produce a
response; the response hook may mutate the response and the context. The
context type is kept abstract. -/

structure PMod (Ctx : Type) where
  handle : HttpRequest → Ctx → HttpRequest × Ctx × Option HttpResponse
  on_response : HttpRequest → HttpResponse → Ctx → HttpResponse × Ctx

/-- Request-side scan of Pipeline handle: run the hooks in order until the
first one produces a response, recording its index. -/
def scanMods {Ctx : Type} : List (PMod Ctx) → HttpRequest → Ctx →
    HttpRequest × Ctx × Option (Nat × HttpResponse)
  | [], r, c => (r, c, none)
  | m :: t, r, c =>
    let (r', c', o) := m.handle r c
    match o with
    | some resp => (r', c', some (0, resp))
    | none =>
      let (r'', c'', f) := scanMods t r' c'
      (r'', c'', f.map (fun p => (p.1 + 1, p.2)))

/-- Response-side fold of Pipeline handle over an explicit module list. -/
def respPhase {Ctx : Type} : List (PMod Ctx) → HttpRequest → HttpResponse → Ctx →
    HttpResponse × Ctx
  | [], _, resp, c => (resp, c)
  | m :: t, r, resp, c =>
    let (resp', c') := m.on_response r resp c
    respPhase t r resp' c'

/-- Rust Pipeline handle: scan the modules in order until one produces a
response, then run on_response over the visited prefix in reverse order,
starting from the produced response or from the 500 sentinel. -/
def pipelineHandle {Ctx : Type} (mods : List (PMod Ctx)) (r : HttpRequest) (c : Ctx) :
    HttpResponse × Ctx :=
  let (r', c', found) := scanMods mods r c
  let resp :=
    match found with
    | some (_, rr) => rr
    | none => HttpResponse.error 500 (str2cp "No handler")
  let limit :=
    match found with
    | some (i, _) => i + 1
    | none => mods.length
  respPhase ((mods.take limit).reverse) r' resp c'

/-- Apply the on_response hooks of the modules at the given indices, in the
given order (indices without a module are skipped). Used to state which
post-processors a pipeline run invokes, and in which order. -/
def applyPostAt {Ctx : Type} (mods : List (PMod Ctx)) (idxs : List Nat) (r : HttpRequest)
    (resp : HttpResponse) (c : Ctx) : HttpResponse × Ctx :=
  match idxs with
  | [] => (resp, c)
  | i :: t =>
    match mods.get? i with
    | some m =>
      let (resp', c') := m.on_response r resp c
      applyPostAt mods t r resp' c'
    | none => applyPostAt mods t r resp c

/-! ## Theorems -/

/-- C9: the claim says latency samples are capped at 600000 ms before being
added to the latency sum. In src/metrics.rs record_latency adds the raw
sample with no cap: recording 600001 ms adds 600001, not 600000. The test
suite (tests.rs, record_latency_caps_extreme_values) expects the cap, so
this is a divergence of the code from its own tests and spec. -/
theorem record_latency_no_cap :
    (record_latency Counters.zero 600001).latency_sum_ms = 600001 ∧
    (record_latency Counters.zero 600001).latency_max_ms = 600001 ∧
    (600001 : Nat) ≠ 600000 := by
  refine ⟨?_, ?_, by decide⟩ <;> rfl

theorem runConns_rel (evts : List ConnEvent) : ∀ c : Counters,
    ((evts.foldl connStep c).requests_ok + (evts.foldl connStep c).requests_err
      + c.requests_total) % 2 ^ 64
    = ((evts.foldl connStep c).requests_total + countOverload evts + countReadErr evts
      + c.requests_ok + c.requests_err) % 2 ^ 64 := by
  induction evts with
  | nil => intro c; simp [countOverload, countReadErr]; omega
  | cons e t ih =>
    intro c
    have h := ih (connStep c e)
    simp only [List.foldl_cons]
    cases e <;>
      simp only [connStep, inc_requests, inc_requests_ok, inc_requests_err, U64,
        countOverload, countReadErr, List.filter_cons] at h ⊢
    case overload => simp at h ⊢; omega
    case readErr => simp at h ⊢; omega
    case timedOut => simp at h ⊢; omega
    case parseFail => simp at h ⊢; omega
    case lenRequired => simp at h ⊢; omega
    case pipelineDone status =>
      by_cases hs : status < 400 <;> simp [hs, inc_requests_ok, inc_requests_err, U64] at h ⊢ <;>
        omega

/-- C3 counterexample: a single overloaded-rejected connection bumps
requests_err without bumping requests_total, so after it completes
requests_total differs from requests_ok plus requests_err. -/
theorem requests_identity_fails :
    (runConns [ConnEvent.overload]).requests_total ≠
      (runConns [ConnEvent.overload]).requests_ok +
      (runConns [ConnEvent.overload]).requests_err := by
  decide

theorem connStep_total_lt (l : List ConnEvent) : ∀ c : Counters,
    c.requests_total < 2 ^ 64 → (l.foldl connStep c).requests_total < 2 ^ 64 := by
  induction l with
  | nil => intro c hc; simpa using hc
  | cons e t ih =>
    intro c hc
    simp only [List.foldl_cons]
    apply ih
    cases e <;> simp [connStep, inc_requests, inc_requests_ok, inc_requests_err, U64] <;>
      first
        | omega
        | (split <;> simp [inc_requests_ok, inc_requests_err, U64] <;> omega)

/-- C3 amended: at quiescence the counters satisfy requests_ok plus
requests_err equal (modulo u64) to requests_total plus the number of
overload rejections plus the number of read errors; the claimed identity
requests_total equals requests_ok plus requests_err holds exactly when no
connection took the overload-rejection or read-error path. -/
theorem requests_accounting (evts : List ConnEvent) :
    ((runConns evts).requests_ok + (runConns evts).requests_err) % 2 ^ 64
      = ((runConns evts).requests_total + countOverload evts + countReadErr evts) % 2 ^ 64 ∧
    (countOverload evts = 0 → countReadErr evts = 0 →
      (runConns evts).requests_total
        = ((runConns evts).requests_ok + (runConns evts).requests_err) % 2 ^ 64) := by
  have h := runConns_rel evts Counters.zero
  simp only [Counters.zero] at h
  have htot : (runConns evts).requests_total % 2 ^ 64 = (runConns evts).requests_total :=
    Nat.mod_eq_of_lt (connStep_total_lt evts Counters.zero (by decide))
  constructor
  · simp only [runConns, Counters.zero] at htot h ⊢; omega
  · intro h1 h2
    rw [h1, h2] at h
    simp only [runConns, Counters.zero] at htot h ⊢; omega

/-- C3 amended witness: a concrete quiescent run with no overloads and no
read errors, on which the identity holds. -/
theorem requests_accounting_witness :
    countOverload [ConnEvent.pipelineDone 200, ConnEvent.parseFail] = 0 ∧
    (runConns [ConnEvent.pipelineDone 200, ConnEvent.parseFail]).requests_total
      = ((runConns [ConnEvent.pipelineDone 200, ConnEvent.parseFail]).requests_ok
        + (runConns [ConnEvent.pipelineDone 200, ConnEvent.parseFail]).requests_err) % 2 ^ 64 :=
  ⟨by decide,
   (requests_accounting [ConnEvent.pipelineDone 200, ConnEvent.parseFail]).2
     (by decide) (by decide)⟩

theorem cacheLookup_cacheInsert (m : List (List Nat × Entry)) (k : List Nat) (e : Entry) :
    cacheLookup (cacheInsert m k e) k = some e := by
  simp [cacheInsert, cacheLookup]

/-- C4 counterexample: the response hook of the cache admits a 200 response
to a POST request (src/modules/cache.rs on_response checks only the X-Cache
header and the status, never the request method). -/
theorem cache_admits_non_get :
    (⟨str2cp "POST", str2cp "/api", str2cp "HTTP/1.1", [], []⟩ : HttpRequest).method
        ≠ str2cp "GET" ∧
    cacheOnResponse 300 [] ⟨str2cp "POST", str2cp "/api", str2cp "HTTP/1.1", [], []⟩
        ⟨str2cp "HTTP/1.1", 200, str2cp "OK", [], []⟩ 0
      = [(str2cp "/api",
          ⟨⟨str2cp "HTTP/1.1", 200, str2cp "OK", [], []⟩, 300⟩)] := by
  constructor
  · decide
  · rfl

/-- C4 amended: the cache admits a new entry exactly when the response has
status 200 and carries no X-Cache header, irrespective of the request
method; the admitted entry is keyed by the request path and expires at now
plus ttl. -/
theorem cache_admission (ttl now : Nat) (m : List (List Nat × Entry)) (req : HttpRequest)
    (resp : HttpResponse) :
    (resp.status_code ≠ 200 ∨ (resp.get_header (str2cp "X-Cache")).isSome →
      cacheOnResponse ttl m req resp now = m) ∧
    ((resp.get_header (str2cp "X-Cache")).isNone ∧ resp.status_code = 200 →
      cacheLookup (cacheOnResponse ttl m req resp now) req.path = some ⟨resp, now + ttl⟩) := by
  constructor
  · intro h
    unfold cacheOnResponse
    rcases h with h | h
    · simp [h]
    · have : ¬ (resp.get_header (str2cp "X-Cache")).isNone := by
        simp [Option.isNone_iff_eq_none]
        intro hn
        rw [hn] at h
        simp at h
      simp [this]
  · intro ⟨h1, h2⟩
    unfold cacheOnResponse
    simp [h1, h2, cacheLookup_cacheInsert]

/-- C4 amended witness: concrete instances of both directions. -/
theorem cache_admission_witness :
    cacheOnResponse 300 [] ⟨str2cp "GET", str2cp "/a", str2cp "HTTP/1.1", [], []⟩
        ⟨str2cp "HTTP/1.1", 404, str2cp "NF", [], []⟩ 7 = [] ∧
    cacheLookup (cacheOnResponse 300 []
        ⟨str2cp "GET", str2cp "/a", str2cp "HTTP/1.1", [], []⟩
        ⟨str2cp "HTTP/1.1", 200, str2cp "OK", [], []⟩ 7) (str2cp "/a")
      = some ⟨⟨str2cp "HTTP/1.1", 200, str2cp "OK", [], []⟩, 307⟩ := by
  constructor
  · exact (cache_admission 300 7 [] _ _).1 (by left; decide)
  · exact (cache_admission 300 7 [] ⟨str2cp "GET", str2cp "/a", str2cp "HTTP/1.1", [], []⟩ _).2
      ⟨by rfl, by rfl⟩

/-- C10: on a fresh cache entry whose ETag equals the request's
If-None-Match value, the cache produces a 304 Not Modified whose header
list is exactly the single X-Cache: HIT pair and whose body is empty; no
header of the cached response is carried over. -/
theorem cache_304_shape (m : List (List Nat × Entry)) (req : HttpRequest) (now : Nat)
    (e : Entry) (tag : List Nat)
    (h1 : req.method = str2cp "GET")
    (h2 : cacheLookup m req.path = some e)
    (h3 : now < e.exp)
    (h4 : req.get_header (str2cp "If-None-Match") = some tag)
    (h5 : e.resp.get_header (str2cp "ETag") = some tag) :
    cacheHandle m req now =
      (m, some { version := str2cp "HTTP/1.1", status_code := 304,
                 status_text := str2cp "Not Modified",
                 headers := [(str2cp "X-Cache", str2cp "HIT")], body := [] }) := by
  unfold cacheHandle
  rw [h2]
  simp [h1, h2, h3, h4, h5]

/-- C10 witness: a concrete fresh entry with matching ETag. -/
theorem cache_304_shape_witness :
    cacheHandle
      [(str2cp "/p",
        ⟨⟨str2cp "HTTP/1.1", 200, str2cp "OK",
          [(str2cp "ETag", str2cp "abc"), (str2cp "Content-Type", str2cp "text/html")],
          str2cp "hello"⟩, 10⟩)]
      ⟨str2cp "GET", str2cp "/p", str2cp "HTTP/1.1",
        [(str2cp "If-None-Match", str2cp "abc")], []⟩ 3 =
      ([(str2cp "/p",
        ⟨⟨str2cp "HTTP/1.1", 200, str2cp "OK",
          [(str2cp "ETag", str2cp "abc"), (str2cp "Content-Type", str2cp "text/html")],
          str2cp "hello"⟩, 10⟩)],
       some { version := str2cp "HTTP/1.1", status_code := 304,
              status_text := str2cp "Not Modified",
              headers := [(str2cp "X-Cache", str2cp "HIT")], body := [] }) := by
  exact cache_304_shape
    [(str2cp "/p",
      ⟨⟨str2cp "HTTP/1.1", 200, str2cp "OK",
        [(str2cp "ETag", str2cp "abc"), (str2cp "Content-Type", str2cp "text/html")],
        str2cp "hello"⟩, 10⟩)]
    ⟨str2cp "GET", str2cp "/p", str2cp "HTTP/1.1",
      [(str2cp "If-None-Match", str2cp "abc")], []⟩ 3
    ⟨⟨str2cp "HTTP/1.1", 200, str2cp "OK",
      [(str2cp "ETag", str2cp "abc"), (str2cp "Content-Type", str2cp "text/html")],
      str2cp "hello"⟩, 10⟩
    (str2cp "abc")
    rfl (by simp [cacheLookup]) (by decide) (by rfl) (by rfl)

theorem cbHandle_not_open (recovery : Nat) (s : CBState) (now : Nat)
    (h : s.state ≠ STATE_OPEN) : cbHandle recovery s now = (s, none) := by
  simp [cbHandle, h]

theorem cbOpenAdmits_zero (recovery : Nat) (ts : List Nat) : ∀ s : CBState,
    s.state ≠ STATE_OPEN → cbOpenAdmits (cbRun recovery s ts).2 = 0 := by
  induction ts with
  | nil => intro s _; simp [cbRun, cbOpenAdmits]
  | cons now rest ih =>
    intro s h
    simp only [cbRun, cbHandle_not_open recovery s now h]
    simp only [cbOpenAdmits, List.filter_cons] at ih ⊢
    simp only [h, decide_False, Bool.false_and, Bool.false_eq_true, if_false]
    exact ih s h

/-- C5: while the breaker is OPEN, a request arriving before the recovery
timeout gets the 503 response and leaves the state untouched; the first
request at or past the timeout flips the state to HALF_OPEN and passes
through; consequently any sequential run that starts in the OPEN state
admits at most one request while the observed state is OPEN. -/
theorem circuit_breaker_open (recovery : Nat) :
    (∀ (s : CBState) (now : Nat), s.state = STATE_OPEN → now - s.openedAt < recovery →
      cbHandle recovery s now
        = (s, some (HttpResponse.error 503 (str2cp "Circuit breaker open")))) ∧
    (∀ (s : CBState) (now : Nat), s.state = STATE_OPEN → recovery ≤ now - s.openedAt →
      cbHandle recovery s now = ({ s with state := STATE_HALF_OPEN }, none)) ∧
    (∀ (s : CBState) (ts : List Nat), s.state = STATE_OPEN →
      cbOpenAdmits (cbRun recovery s ts).2 ≤ 1) := by
  refine ⟨?_, ?_, ?_⟩
  · intro s now h1 h2
    simp [cbHandle, h1]
    omega
  · intro s now h1 h2
    simp [cbHandle, h1]
    omega
  · intro s ts
    induction ts generalizing s with
    | nil => intro _; simp [cbRun, cbOpenAdmits]
    | cons now rest ih =>
      intro h
      by_cases hrec : recovery ≤ now - s.openedAt
      · have hh : cbHandle recovery s now = ({ s with state := STATE_HALF_OPEN }, none) := by
          simp [cbHandle, h]; omega
        simp only [cbRun, hh]
        simp only [cbOpenAdmits, List.filter_cons]
        have hz := cbOpenAdmits_zero recovery rest { s with state := STATE_HALF_OPEN }
          (by simp [STATE_HALF_OPEN, STATE_OPEN])
        simp only [cbOpenAdmits] at hz
        simp only [h, decide_True, Option.isNone_none, Bool.and_true, if_true]
        simp [hz]
      · have hh : cbHandle recovery s now
            = (s, some (HttpResponse.error 503 (str2cp "Circuit breaker open"))) := by
          simp [cbHandle, h]; omega
        simp only [cbRun, hh]
        simp only [cbOpenAdmits, List.filter_cons] at ih ⊢
        simp only [Option.isNone_some, Bool.and_false, Bool.false_eq_true, if_false]
        exact ih s h

/-- C5 witness: a breaker opened at time 0 with a 30 second recovery window,
probed at times 10 (rejected) and 40 (admitted); a full run over request
times 5, 10, 40, 50 admits exactly one request while OPEN. -/
theorem circuit_breaker_open_witness :
    cbHandle 30 ⟨7, STATE_OPEN, 0⟩ 10
      = (⟨7, STATE_OPEN, 0⟩, some (HttpResponse.error 503 (str2cp "Circuit breaker open"))) ∧
    cbHandle 30 ⟨7, STATE_OPEN, 0⟩ 40 = (⟨7, STATE_HALF_OPEN, 0⟩, none) ∧
    cbOpenAdmits (cbRun 30 ⟨7, STATE_OPEN, 0⟩ [5, 10, 40, 50]).2 ≤ 1 :=
  ⟨(circuit_breaker_open 30).1 ⟨7, STATE_OPEN, 0⟩ 10 rfl (by decide),
   (circuit_breaker_open 30).2.1 ⟨7, STATE_OPEN, 0⟩ 40 rfl (by decide),
   (circuit_breaker_open 30).2.2 ⟨7, STATE_OPEN, 0⟩ [5, 10, 40, 50] rfl⟩

theorem poolQueue_filter_ne (m : PoolMap) (a a' : Nat × Nat) (h : a' ≠ a) :
    poolQueue (m.filter (fun p => p.1 ≠ a)) a' = poolQueue m a' := by
  simp only [ne_eq, decide_not]
  induction m with
  | nil => rfl
  | cons x t ih =>
    cases x with
    | mk xa xq =>
      by_cases hx : xa = a
      · subst hx
        have hne : ¬ xa = a' := fun he => h he.symm
        simp only [List.filter_cons, decide_True, Bool.not_true, Bool.false_eq_true, if_false]
        rw [ih]
        simp [poolQueue, hne]
      · simp only [List.filter_cons, hx, decide_False, Bool.not_false, if_true]
        by_cases hq : xa = a'
        · simp [poolQueue, hq]
        · simp only [poolQueue, hq, if_false]
          rw [ih]

theorem poolQueue_poolSet_same (m : PoolMap) (a : Nat × Nat) (q : List Pooled) :
    poolQueue (poolSet m a q) a = q := by
  simp [poolSet, poolQueue]

theorem poolQueue_poolSet_ne (m : PoolMap) (a a' : Nat × Nat) (q : List Pooled)
    (h : a' ≠ a) : poolQueue (poolSet m a q) a' = poolQueue m a' := by
  simp only [poolSet, poolQueue]
  rw [if_neg (fun he => h he.symm)]
  exact poolQueue_filter_ne m a a' h

theorem popRev_length (now : Nat) (q : List Pooled) :
    (popRev now q).2.length ≤ q.length := by
  induction q with
  | nil => simp [popRev]
  | cons p t ih =>
    simp only [popRev]
    split
    · simp only [List.length_cons]; omega
    · split
      · simp
      · simp only [List.length_cons]; omega

theorem popRev_some_fresh (now : Nat) (q : List Pooled) (p : Pooled) (rest : List Pooled)
    (h : popRev now q = (some p, rest)) : now - p.created ≤ MAX_IDLE_AGE ∧ p.probeOk = true := by
  induction q generalizing rest with
  | nil => simp [popRev] at h
  | cons x t ih =>
    simp only [popRev] at h
    by_cases h1 : now - x.created > MAX_IDLE_AGE
    · rw [if_pos h1] at h
      exact ih rest h
    · rw [if_neg h1] at h
      by_cases h2 : x.probeOk
      · rw [if_pos h2] at h
        cases h
        exact ⟨by omega, h2⟩
      · rw [if_neg h2] at h
        exact ih rest h

/-- Queue-length invariant of the pool: every per-address queue holds at
most MAX_IDLE_PER_HOST entries. -/
def PoolInv (m : PoolMap) : Prop :=
  ∀ addr, (poolQueue m addr).length ≤ MAX_IDLE_PER_HOST

theorem poolPut_preserves (m : PoolMap) (addr : Nat × Nat) (now : Nat) (pk : Bool)
    (h : PoolInv m) : PoolInv (poolPut m addr now pk) := by
  intro a
  simp only [poolPut]
  have hfilter : ((poolQueue m addr).filter
      (fun p => now - p.created < MAX_IDLE_AGE)).length ≤ (poolQueue m addr).length :=
    List.length_filter_le _ _
  by_cases ha : a = addr
  · subst ha
    split
    · rw [poolQueue_poolSet_same]
      rename_i hlen
      simp only [List.length_append, List.length_cons, List.length_nil]
      omega
    · rw [poolQueue_poolSet_same]
      have := h a
      omega
  · split <;> rw [poolQueue_poolSet_ne _ _ _ _ ha] <;> exact h a

theorem poolGet_preserves (m : PoolMap) (addr : Nat × Nat) (now : Nat)
    (h : PoolInv m) : PoolInv (poolGet m addr now).2 := by
  intro a
  unfold poolGet poolPopLoop
  by_cases ha : a = addr
  · subst ha
    simp only
    rw [poolQueue_poolSet_same]
    have h1 := popRev_length now (poolQueue m a).reverse
    have h2 := h a
    simp only [List.length_reverse] at *
    omega
  · simp only
    rw [poolQueue_poolSet_ne _ _ _ _ ha]
    exact h a

theorem poolRun_inv (ops : List PoolOp) : PoolInv (poolRun ops) := by
  have : ∀ (l : List PoolOp) (m : PoolMap), PoolInv m → PoolInv (l.foldl poolStep m) := by
    intro l
    induction l with
    | nil => intro m hm; simpa using hm
    | cons op t ih =>
      intro m hm
      simp only [List.foldl_cons]
      apply ih
      cases op with
      | put addr now pk => exact poolPut_preserves m addr now pk hm
      | get addr now => exact poolGet_preserves m addr now hm
  apply this
  intro addr
  simp [poolQueue, MAX_IDLE_PER_HOST]

/-- C7: across any history of put and get operations starting from the empty
pool, every per-address idle queue holds at most MAX_IDLE_PER_HOST (8)
entries; and whenever get returns a pooled connection, the age of that
connection does not exceed MAX_IDLE_AGE (30 seconds), entries past the cap
being silently discarded by the pop loop. -/
theorem pool_bounds :
    (∀ (ops : List PoolOp) (addr : Nat × Nat),
      (poolQueue (poolRun ops) addr).length ≤ MAX_IDLE_PER_HOST) ∧
    (∀ (m : PoolMap) (addr : Nat × Nat) (now : Nat) (p : Pooled) (m' : PoolMap),
      poolGet m addr now = (some p, m') → now - p.created ≤ MAX_IDLE_AGE) := by
  constructor
  · intro ops addr
    exact poolRun_inv ops addr
  · intro m addr now p m' h
    unfold poolGet poolPopLoop at h
    simp only at h
    have : popRev now (poolQueue m addr).reverse
        = (some p, (popRev now (poolQueue m addr).reverse).2) := by
      cases hpr : popRev now (poolQueue m addr).reverse with
      | mk r1 r2 =>
        rw [hpr] at h
        simp only at h
        cases h
        simp
    exact (popRev_some_fresh now (poolQueue m addr).reverse p _ this).1

/-- C7 witness: a concrete history filling one queue past the cap, and a
concrete get returning a 10 second old pooled connection. -/
theorem pool_bounds_witness :
    (poolQueue (poolRun (List.replicate 12 (PoolOp.put (1, 2) 0 true))) (1, 2)).length
      ≤ MAX_IDLE_PER_HOST ∧
    10 - (⟨0, true⟩ : Pooled).created ≤ MAX_IDLE_AGE :=
  ⟨pool_bounds.1 (List.replicate 12 (PoolOp.put (1, 2) 0 true)) (1, 2),
   pool_bounds.2 [((1, 2), [⟨0, true⟩])] (1, 2) 10 ⟨0, true⟩
     (poolGet [((1, 2), [⟨0, true⟩])] (1, 2) 10).2 (by rfl)⟩

theorem respPhase_eq_applyPostAt {Ctx : Type} (mods : List (PMod Ctx)) :
    ∀ (limit : Nat), limit ≤ mods.length → ∀ (r : HttpRequest) (resp : HttpResponse) (c : Ctx),
    respPhase ((mods.take limit).reverse) r resp c
      = applyPostAt mods ((List.range limit).reverse) r resp c := by
  intro limit
  induction limit with
  | zero => intro _ r resp c; simp [respPhase, applyPostAt]
  | succ n ih =>
    intro hle r resp c
    have hn : n < mods.length := by omega
    rw [List.range_succ, List.take_succ]
    have hget : mods.get? n = some (mods.get ⟨n, hn⟩) := List.get?_eq_get hn
    have hget3 : mods[n]?.toList = [mods.get ⟨n, hn⟩] := by
      rw [← List.get?_eq_getElem?, hget]
      rfl
    rw [hget3]
    simp only [List.reverse_append, List.reverse_cons, List.reverse_nil,
      List.nil_append, List.singleton_append]
    simp only [respPhase, applyPostAt, hget]
    exact ih (by omega) r _ _

theorem scanMods_idx_lt {Ctx : Type} : ∀ (mods : List (PMod Ctx)) (r : HttpRequest) (c : Ctx)
    (r' : HttpRequest) (c' : Ctx) (k : Nat) (rr : HttpResponse),
    scanMods mods r c = (r', c', some (k, rr)) → k < mods.length := by
  intro mods
  induction mods with
  | nil => intro r c r' c' k rr h; simp [scanMods] at h
  | cons m t ih =>
    intro r c r' c' k rr h
    cases hm : m.handle r c with
    | mk r1 rest =>
      cases rest with
      | mk c1 o =>
        simp only [scanMods, hm] at h
        cases o with
        | some resp =>
          simp only [Prod.mk.injEq, Option.some.injEq] at h
          simp only [List.length_cons]
          omega
        | none =>
          simp only at h
          cases hs : scanMods t r1 c1 with
          | mk r2 rest2 =>
            cases rest2 with
            | mk c2 f =>
              rw [hs] at h
              cases f with
              | none => simp at h
              | some p =>
                simp only [Option.map_some', Prod.mk.injEq, Option.some.injEq] at h
                have := ih r1 c1 r2 c2 p.1 p.2 (by rw [hs])
                simp only [List.length_cons]
                omega

/-- C1: when the request-side scan short-circuits at index k, the pipeline
applies the response post-processors of exactly the modules at indices k
down to 0, once each, in descending index order, to the produced response;
when no module produces a response, it applies the post-processors of all
modules in descending index order to the 500 No handler sentinel. -/
theorem pipeline_onion {Ctx : Type} (mods : List (PMod Ctx)) (r : HttpRequest) (c : Ctx) :
    (∀ (r' : HttpRequest) (c' : Ctx) (k : Nat) (rr : HttpResponse),
      scanMods mods r c = (r', c', some (k, rr)) →
      k < mods.length ∧
      pipelineHandle mods r c = applyPostAt mods ((List.range (k + 1)).reverse) r' rr c' ∧
      (∀ i, i ∈ (List.range (k + 1)).reverse ↔ i ≤ k) ∧
      ((List.range (k + 1)).reverse).Nodup ∧
      List.Pairwise (fun a b => b < a) ((List.range (k + 1)).reverse)) ∧
    (∀ (r' : HttpRequest) (c' : Ctx),
      scanMods mods r c = (r', c', none) →
      pipelineHandle mods r c
        = applyPostAt mods ((List.range mods.length).reverse) r'
            (HttpResponse.error 500 (str2cp "No handler")) c') := by
  constructor
  · intro r' c' k rr h
    have hk : k < mods.length := scanMods_idx_lt mods r c r' c' k rr h
    refine ⟨hk, ?_, ?_, ?_, ?_⟩
    · simp only [pipelineHandle, h]
      exact respPhase_eq_applyPostAt mods (k + 1) (by omega) r' rr c'
    · intro i
      simp only [List.mem_reverse, List.mem_range]
      omega
    · exact List.nodup_reverse.mpr (List.nodup_range _)
    · exact List.pairwise_reverse.mpr (by simpa using List.pairwise_lt_range (k + 1))
  · intro r' c' h
    simp only [pipelineHandle, h]
    exact respPhase_eq_applyPostAt mods mods.length (by omega) r' _ c'

def wModA : PMod Nat :=
  ⟨fun r c => (r, c + 1, none), fun _ resp c => (resp, c + 10)⟩

def wModB : PMod Nat :=
  ⟨fun r c => (r, c, some (HttpResponse.error 403 (str2cp "no"))),
   fun _ resp c => ({ resp with status_code := resp.status_code + 1 }, c + 100)⟩

def wModC : PMod Nat :=
  ⟨fun r c => (r, c, none), fun _ resp c => (resp, c + 1000)⟩

def wReq : HttpRequest := ⟨str2cp "GET", str2cp "/", str2cp "HTTP/1.1", [], []⟩

/-- C1 witness: a three-module pipeline short-circuiting at index 1; the
theorem yields the explicit post-processing order 1, 0 applied to the
produced response (module 2 is never consulted). -/
theorem pipeline_onion_witness :
    pipelineHandle [wModA, wModB, wModC] wReq 0
      = applyPostAt [wModA, wModB, wModC] ((List.range 2).reverse) wReq
          (HttpResponse.error 403 (str2cp "no")) 1 :=
  ((pipeline_onion [wModA, wModB, wModC] wReq 0).1 wReq 1 1
    (HttpResponse.error 403 (str2cp "no")) (by rfl)).2.1

theorem findHdrEnd_append_none (a b : List Nat) (h : findHdrEnd (a ++ b) = none) :
    findHdrEnd a = none := by
  induction a with
  | nil => rfl
  | cons c t ih =>
    simp only [List.cons_append, List.append_eq, findHdrEnd] at h ⊢
    split at h
    · cases h
    · rename_i hcond
      simp only [Option.map_eq_none'] at h
      have hp : ¬ (c :: t).take 4 = [13, 10, 13, 10] := by
        intro hp
        apply hcond
        have hlen : 4 ≤ (c :: t).length := by
          have hl := congrArg List.length hp
          simp only [List.length_take, List.length_cons] at hl
          simp only [List.length_cons]
          omega
        have hq : ((c :: t) ++ b).take 4 = (c :: t).take 4 :=
          List.take_append_of_le_length hlen
        rw [List.cons_append] at hq
        show ((c :: (t ++ b)).take 4) = [13, 10, 13, 10]
        rw [hq, hp]
      rw [if_neg hp]
      simp only [Option.map_eq_none']
      exact ih h

theorem findHdrEnd_exact (B : List Nat) : ∀ (A : List Nat),
    (∀ i, i < A.length → ((A ++ [13, 10, 13, 10] ++ B).drop i).take 4 ≠ [13, 10, 13, 10]) →
    findHdrEnd (A ++ [13, 10, 13, 10] ++ B) = some A.length := by
  intro A
  induction A with
  | nil => intro _; simp [findHdrEnd]
  | cons c t ih =>
    intro h
    have h0 := h 0 (by simp)
    simp only [List.drop_zero, List.cons_append] at h0
    simp only [List.cons_append, List.append_eq, findHdrEnd]
    rw [if_neg (by
      intro hq
      apply h0
      simpa using hq)]
    have ht := ih (fun i hi => by
      have h2 := h (i + 1) (by simp only [List.length_cons]; omega)
      simp only [List.cons_append, List.drop_succ_cons] at h2
      exact h2)
    simp only [List.append_eq] at ht
    rw [ht]
    simp

/-- Reader streams made only of successful nonempty reads, as byte chunks. -/
def chunksOf (cs : List (List Nat)) : List RdEvt := cs.map RdEvt.chunk

theorem rhm_hdr_too_large : ∀ (pre : List (List Nat)) (c : List Nat) (post : List RdEvt)
    (d : List Nat),
    (∀ x ∈ pre, x ≠ []) → c ≠ [] →
    findHdrEnd (d ++ pre.flatten) = none →
    MAX_HEADER_SIZE < (d ++ pre.flatten ++ c).length →
    rhmLoop (chunksOf pre ++ RdEvt.chunk c :: post) d false 0 none false
      = .failed "headers too large" := by
  intro pre
  induction pre with
  | nil =>
    intro c post d _ hc hfind hlen
    simp only [List.flatten_nil, List.append_nil] at hfind hlen
    simp only [chunksOf, List.map_nil, List.nil_append]
    simp only [rhmLoop]
    rw [if_neg (by simpa [List.isEmpty_iff] using hc)]
    simp only [Bool.false_eq_true, if_false]
    rw [if_pos (by simpa using hlen)]
  | cons x t ih =>
    intro c post d hne hc hfind hlen
    simp only [chunksOf, List.map_cons, List.cons_append] at *
    simp only [rhmLoop]
    have hx : x ≠ [] := hne x (by simp)
    rw [if_neg (by simpa [List.isEmpty_iff] using hx)]
    simp only [Bool.false_eq_true, if_false]
    by_cases hbig : (d ++ x).length > MAX_HEADER_SIZE
    · rw [if_pos hbig]
    · rw [if_neg hbig]
      have hassoc : d ++ (x ++ t.flatten) = (d ++ x) ++ t.flatten := by
        simp [List.append_assoc]
      rw [List.flatten_cons, hassoc] at hfind
      have hfx : findHdrEnd (d ++ x) = none := findHdrEnd_append_none _ _ hfind
      rw [hfx]
      exact ih c post (d ++ x) (fun y hy => hne y (by simp [hy])) hc hfind
        (by simp only [List.flatten_cons] at hlen; simpa [List.append_assoc] using hlen)

theorem rhm_content_length_too_large : ∀ (pre : List (List Nat)) (c : List Nat)
    (post : List RdEvt) (d : List Nat) (p : Nat) (hdrText : List Nat) (cl : Nat),
    (∀ x ∈ pre, x ≠ []) → c ≠ [] →
    findHdrEnd (d ++ pre.flatten) = none →
    (d ++ pre.flatten ++ c).length ≤ MAX_HEADER_SIZE →
    findHdrEnd (d ++ pre.flatten ++ c) = some p →
    utf8Decode ((d ++ pre.flatten ++ c).take p) = some hdrText →
    (rawHdr hdrText (str2cp "Content-Length")).bind parseU64 = some cl →
    MAX_BODY_SIZE < cl →
    rhmLoop (chunksOf pre ++ RdEvt.chunk c :: post) d false 0 none false
      = .failed "body too large" := by
  intro pre
  induction pre with
  | nil =>
    intro c post d p hdrText cl _ hc hfind hlen hfind2 hdec hcl hbig
    simp only [List.flatten_nil, List.append_nil] at hfind hlen hfind2 hdec
    simp only [chunksOf, List.map_nil, List.nil_append]
    simp only [rhmLoop]
    rw [if_neg (by simpa [List.isEmpty_iff] using hc)]
    simp only [Bool.false_eq_true, if_false]
    rw [if_neg (by omega)]
    simp only [hfind2, hdec, hcl]
    rw [if_pos (by omega)]
  | cons x t ih =>
    intro c post d p hdrText cl hne hc hfind hlen hfind2 hdec hcl hbig
    simp only [chunksOf, List.map_cons, List.cons_append] at *
    simp only [rhmLoop]
    have hx : x ≠ [] := hne x (by simp)
    rw [if_neg (by simpa [List.isEmpty_iff] using hx)]
    simp only [Bool.false_eq_true, if_false]
    have hassoc : d ++ (x :: t).flatten = (d ++ x) ++ t.flatten := by
      simp [List.append_assoc]
    have hassoc2 : d ++ (x :: t).flatten ++ c = (d ++ x) ++ t.flatten ++ c := by
      simp [List.append_assoc]
    rw [if_neg (by
      rw [hassoc2] at hlen
      have : ((d ++ x) ++ t.flatten ++ c).length
          = (d ++ x).length + t.flatten.length + c.length := by simp; omega
      have hcne : c.length ≥ 1 := by
        cases c with
        | nil => exact absurd rfl hc
        | cons a b => simp
      omega)]
    rw [hassoc] at hfind
    have hfx : findHdrEnd (d ++ x) = none := findHdrEnd_append_none _ _ hfind
    rw [hfx]
    exact ih c post (d ++ x) p hdrText cl (fun y hy => hne y (by simp [hy])) hc hfind
      (by rw [hassoc2] at hlen; simpa [List.append_assoc] using hlen)
      (by rw [hassoc2] at hfind2; simpa [List.append_assoc] using hfind2)
      (by rw [hassoc2] at hdec; simpa [List.append_assoc] using hdec)
      hcl hbig

/-- A request whose headers declare a Content-Length of exactly
MAX_BODY_SIZE. -/
def hdrA : List Nat := str2cp "GET / HTTP/1.1\r\nContent-Length: 16777216\r\n\r\n"

/-- A body of exactly MAX_BODY_SIZE bytes. -/
def bigBody : List Nat := List.replicate MAX_BODY_SIZE 120

/-- A chunked request header with no Content-Length. -/
def hdrB : List Nat := str2cp "GET / HTTP/1.1\r\nTransfer-Encoding: chunked\r\n\r\n"

/-- A body one byte over MAX_BODY_SIZE. -/
def overBody : List Nat := List.replicate (MAX_BODY_SIZE + 1) 120

theorem hdrA_len : hdrA.length = 44 := by decide

theorem accept_step1 : rhmLoop [RdEvt.chunk hdrA, RdEvt.chunk bigBody] [] false 0 none false
    = rhmLoop [RdEvt.chunk bigBody] hdrA true 44 (some 16777216) false := by
  have e1 : findHdrEnd hdrA = some 40 := by decide
  have e2 : utf8Decode (hdrA.take 40) = some (hdrA.take 40) := by decide
  have e3 : (rawHdr (hdrA.take 40) (str2cp "Content-Length")).bind parseU64 = some 16777216 := by
    decide
  have e4 : rawHdr (hdrA.take 40) (str2cp "Transfer-Encoding") = none := by decide
  conv_lhs => rw [rhmLoop]
  rw [if_neg (by decide)]
  simp only [List.nil_append, Bool.false_eq_true, if_false, e1, e2, e3, e4, rhmBody]
  rw [if_neg (by decide)]
  rw [if_neg (by simp [MAX_BODY_SIZE])]
  rw [hdrA_len]
  norm_num [MAX_BODY_SIZE]

theorem bigBody_len : bigBody.length = MAX_BODY_SIZE := List.length_replicate _ _

theorem bigBody_ne : bigBody.isEmpty = false := by
  rw [List.isEmpty_eq_false]
  intro h
  have hlen := congrArg List.length h
  rw [bigBody_len] at hlen
  simp [MAX_BODY_SIZE] at hlen

theorem full_len : (hdrA ++ bigBody).length = 44 + 16777216 := by
  rw [List.length_append, hdrA_len, bigBody_len]
  rfl

theorem rhm_step_done (rest : List RdEvt) (d c : List Nat) (bs n : Nat) (ck : Bool)
    (hc : c.isEmpty = false)
    (h1 : ¬ ((d ++ c).length - bs > MAX_BODY_SIZE))
    (h2 : (d ++ c).length - bs ≥ n) :
    rhmLoop (RdEvt.chunk c :: rest) d true bs (some n) ck
      = .finished (d ++ c) true bs (some n) false := by
  conv_lhs => rw [rhmLoop]
  simp only [hc, Bool.false_eq_true, if_false, eq_self_iff_true, if_true, rhmBody]
  rw [if_neg h1, if_pos h2]

theorem rhm_step_overflow (rest : List RdEvt) (d c : List Nat) (bs : Nat) (cl : Option Nat)
    (ck : Bool) (hc : c.isEmpty = false)
    (h1 : (d ++ c).length - bs > MAX_BODY_SIZE) :
    rhmLoop (RdEvt.chunk c :: rest) d true bs cl ck = .failed "body too large" := by
  conv_lhs => rw [rhmLoop]
  simp only [hc, Bool.false_eq_true, if_false, eq_self_iff_true, if_true, rhmBody]
  rw [if_pos h1]

theorem accept_step2 : rhmLoop [RdEvt.chunk bigBody] hdrA true 44 (some 16777216) false
    = .finished (hdrA ++ bigBody) true 44 (some 16777216) false :=
  rhm_step_done [] hdrA bigBody 44 16777216 false bigBody_ne
    (by rw [full_len]; norm_num [MAX_BODY_SIZE])
    (by rw [full_len])

theorem hdrB_step1 : rhmLoop [RdEvt.chunk hdrB, RdEvt.chunk overBody] [] false 0 none false
    = rhmLoop [RdEvt.chunk overBody] hdrB true 46 none true := by
  have e1 : findHdrEnd hdrB = some 42 := by decide
  have e2 : utf8Decode (hdrB.take 42) = some (hdrB.take 42) := by decide
  have e3 : (rawHdr (hdrB.take 42) (str2cp "Content-Length")).bind parseU64 = none := by decide
  have e4 : rawHdr (hdrB.take 42) (str2cp "Transfer-Encoding") = some (str2cp "chunked") := by
    decide
  have e5 : eqIgnoreAsciiCase (str2cp "chunked") (str2cp "chunked") = true := by decide
  have e6 : hdrB.length = 46 := by decide
  have e7 : findZeroChunk (hdrB.drop 46) = false := by decide
  conv_lhs => rw [rhmLoop]
  rw [if_neg (by decide)]
  simp only [List.nil_append, Bool.false_eq_true, if_false, e1, e2, e3, e4, e5, rhmBody, e6, e7]
  rw [if_neg (by norm_num [MAX_HEADER_SIZE])]
  rw [if_neg (by simp)]
  rw [if_neg (by norm_num [MAX_BODY_SIZE])]
  rw [if_neg (by simp)]

theorem overBody_len : overBody.length = MAX_BODY_SIZE + 1 := List.length_replicate _ _

theorem overBody_ne : overBody.isEmpty = false := by
  rw [List.isEmpty_eq_false]
  intro h
  have hlen := congrArg List.length h
  rw [overBody_len] at hlen
  simp [MAX_BODY_SIZE] at hlen

theorem hdrB_step2 : rhmLoop [RdEvt.chunk overBody] hdrB true 46 none true
    = .failed "body too large" :=
  rhm_step_overflow [] hdrB overBody 46 none true overBody_ne
    (by
      have e6 : hdrB.length = 46 := by decide
      rw [List.length_append, e6, overBody_len]
      norm_num [MAX_BODY_SIZE])

/-- C8: the incremental reader accepts a message whose body is exactly
MAX_BODY_SIZE bytes; it fails with the exact string body too large when the
declared Content-Length exceeds MAX_BODY_SIZE or when the accumulated body
grows past MAX_BODY_SIZE; it fails with the exact string headers too large
whenever the buffered bytes exceed MAX_HEADER_SIZE before the header
terminator has been seen; and handle_h1 maps exactly these two strings to
431 and 413, everything else to 400. -/
theorem read_message_limits :
    read_http_message [RdEvt.chunk hdrA, RdEvt.chunk bigBody] = .Ok (hdrA ++ bigBody) ∧
    (∀ (pre : List (List Nat)) (c : List Nat) (post : List RdEvt),
      (∀ x ∈ pre, x ≠ []) → c ≠ [] →
      findHdrEnd pre.flatten = none →
      MAX_HEADER_SIZE < (pre.flatten ++ c).length →
      read_http_message (chunksOf pre ++ RdEvt.chunk c :: post) = .Error "headers too large") ∧
    (∀ (pre : List (List Nat)) (c : List Nat) (post : List RdEvt) (p : Nat)
        (hdrText : List Nat) (cl : Nat),
      (∀ x ∈ pre, x ≠ []) → c ≠ [] →
      findHdrEnd pre.flatten = none →
      (pre.flatten ++ c).length ≤ MAX_HEADER_SIZE →
      findHdrEnd (pre.flatten ++ c) = some p →
      utf8Decode ((pre.flatten ++ c).take p) = some hdrText →
      (rawHdr hdrText (str2cp "Content-Length")).bind parseU64 = some cl →
      MAX_BODY_SIZE < cl →
      read_http_message (chunksOf pre ++ RdEvt.chunk c :: post) = .Error "body too large") ∧
    read_http_message [RdEvt.chunk hdrB, RdEvt.chunk overBody] = .Error "body too large" ∧
    errorStatus "headers too large" = 431 ∧
    errorStatus "body too large" = 413 ∧
    (∀ s, s ≠ "headers too large" → s ≠ "body too large" → errorStatus s = 400) := by
  refine ⟨?_, ?_, ?_, ?_, by rfl, by rfl, ?_⟩
  · rw [read_http_message, accept_step1, accept_step2]
    have hne : (hdrA ++ bigBody).isEmpty = false := by
      simp [List.isEmpty_eq_false]
      intro h
      have := congrArg List.length h
      simp [hdrA_len] at this
    simp only [hne, Bool.false_eq_true, if_false]
    norm_num
  · intro pre c post hpre hc hfind hlen
    rw [read_http_message]
    rw [rhm_hdr_too_large pre c post [] hpre hc (by simpa using hfind) (by simpa using hlen)]
  · intro pre c post p hdrText cl hpre hc hfind hlen hfind2 hdec hcl hbig
    rw [read_http_message]
    rw [rhm_content_length_too_large pre c post [] p hdrText cl hpre hc (by simpa using hfind)
      (by simpa using hlen) (by simpa using hfind2) (by simpa using hdec) hcl hbig]
  · rw [read_http_message, hdrB_step1, hdrB_step2]
  · intro s h1 h2
    simp [errorStatus, h1, h2]

/-- A 65537 byte read with no header terminator, for the witness below. -/
def hChunk : List Nat := List.replicate 65537 97

theorem hChunk_len : hChunk.length = 65537 := List.length_replicate _ _

theorem findHdrEnd_replicate97 : ∀ n, findHdrEnd (List.replicate n 97) = none := by
  intro n
  induction n with
  | zero => rfl
  | succ m ih =>
    rw [List.replicate_succ, findHdrEnd]
    rw [if_neg (by
      rw [List.take_succ_cons]
      intro hq
      simp only [List.cons.injEq] at hq
      exact absurd hq.1 (by decide))]
    rw [ih]
    rfl

/-- C8 witness: the general conjuncts applied to concrete streams; a header
block that never terminates within the cap produces headers too large, and
a declared Content-Length one over the cap produces body too large. -/
theorem read_message_limits_witness :
    read_http_message (chunksOf [hChunk] ++ RdEvt.chunk [97] :: [])
      = .Error "headers too large" ∧
    read_http_message
      (chunksOf [] ++ RdEvt.chunk
        (str2cp "GET / HTTP/1.1\r\nContent-Length: 16777217\r\n\r\n") :: [])
      = .Error "body too large" := by
  constructor
  · apply read_message_limits.2.1 [hChunk] [97] []
    · intro x hx
      rw [List.mem_singleton] at hx
      subst hx
      intro he
      have := congrArg List.length he
      rw [hChunk_len] at this
      cases this
    · simp
    · show findHdrEnd ([hChunk].flatten) = none
      simp only [List.flatten_cons, List.flatten_nil, List.append_nil]
      exact findHdrEnd_replicate97 65537
    · show MAX_HEADER_SIZE < ([hChunk].flatten ++ [97]).length
      simp only [List.flatten_cons, List.flatten_nil, List.append_nil, List.length_append,
        hChunk_len]
      norm_num [MAX_HEADER_SIZE]
  · apply read_message_limits.2.2.1 [] (str2cp "GET / HTTP/1.1\r\nContent-Length: 16777217\r\n\r\n")
      [] 40 ((str2cp "GET / HTTP/1.1\r\nContent-Length: 16777217\r\n\r\n").take 40) 16777217
    · intro x hx; simp at hx
    · decide
    · rfl
    · decide
    · decide
    · decide
    · decide
    · decide

/-! ## String lemmas for the request codec round trip -/

theorem mem_of_mem_dropWhile {α : Type} (p : α → Bool) (l : List α) (c : α)
    (h : c ∈ l.dropWhile p) : c ∈ l := by
  induction l with
  | nil => simpa [List.dropWhile] using h
  | cons a t ih =>
    rw [List.dropWhile] at h
    cases hp : p a with
    | true => rw [hp] at h; exact List.mem_cons_of_mem a (ih h)
    | false => rw [hp] at h; exact h

theorem mem_of_mem_trim (s : List Nat) (c : Nat) (h : c ∈ trim s) : c ∈ s := by
  unfold trim at h
  rw [List.mem_reverse] at h
  have h2 := mem_of_mem_dropWhile _ _ _ h
  rw [List.mem_reverse] at h2
  exact mem_of_mem_dropWhile _ _ _ h2

theorem trim_cons_ws (c : Nat) (s : List Nat) (h : isWs c = true) :
    trim (c :: s) = trim s := by
  unfold trim
  rw [List.dropWhile_cons_of_pos (by simpa using h)]

theorem dropWhile_eq_self_of_head {α : Type} (p : α → Bool) (l : List α)
    (h : ∀ hh : l ≠ [], p (l.head hh) = false) : l.dropWhile p = l := by
  cases l with
  | nil => rfl
  | cons a t =>
    rw [List.dropWhile_cons_of_neg]
    simp only [List.head] at h
    simp [h (by simp)]

theorem dropWhile_head_false {α : Type} (p : α → Bool) (l : List α) (a : α) (t : List α)
    (h : l.dropWhile p = a :: t) : p a = false := by
  induction l with
  | nil => simp [List.dropWhile] at h
  | cons x xs ih =>
    rw [List.dropWhile] at h
    cases hp : p x with
    | true => rw [hp] at h; exact ih h
    | false => rw [hp] at h; cases h; exact hp

theorem dropWhile_idem {α : Type} (p : α → Bool) (l : List α) :
    (l.dropWhile p).dropWhile p = l.dropWhile p := by
  cases h : l.dropWhile p with
  | nil => rfl
  | cons a t =>
    rw [List.dropWhile_cons_of_neg]
    simp [dropWhile_head_false p l a t h]

theorem dropWhile_getLast? {α : Type} (p : α → Bool) (l : List α)
    (h : l.dropWhile p ≠ []) : (l.dropWhile p).getLast? = l.getLast? := by
  induction l with
  | nil => simp [List.dropWhile] at h
  | cons x xs ih =>
    cases hp : p x with
    | true =>
      rw [List.dropWhile_cons_of_pos (by simp [hp])] at h ⊢
      have hxs : xs ≠ [] := by
        intro he
        rw [he] at h
        simp [List.dropWhile] at h
      rw [ih h, List.getLast?_cons]
      cases hgl : xs.getLast? with
      | none => exact absurd (List.getLast?_eq_none_iff.mp hgl) hxs
      | some y => rfl
    | false => rw [List.dropWhile_cons_of_neg (by simp [hp])]

theorem trim_idem (s : List Nat) : trim (trim s) = trim s := by
  unfold trim
  generalize hD : s.dropWhile (fun c => isWs c) = D1
  cases hA : D1.reverse.dropWhile (fun c => isWs c) with
  | nil => simp
  | cons a t =>
    have hAne : D1.reverse.dropWhile (fun c => isWs c) ≠ [] := by rw [hA]; simp
    have hlast : (D1.reverse.dropWhile (fun c => isWs c)).getLast? = D1.head? := by
      rw [dropWhile_getLast? _ _ hAne, List.getLast?_reverse]
    have hstep1 : (a :: t).reverse.dropWhile (fun c => isWs c) = (a :: t).reverse := by
      cases hrev : (a :: t).reverse with
      | nil => simp at hrev
      | cons h rest =>
        rw [List.dropWhile_cons_of_neg]
        have hh : (a :: t).getLast? = some h := by
          rw [← List.head?_reverse, hrev]
          rfl
        have hd1 : D1.head? = some h := by rw [← hlast, hA, hh]
        have hD1ne : D1 ≠ [] := by
          intro he
          rw [he] at hd1
          cases hd1
        obtain ⟨d, t', hdt⟩ := List.exists_cons_of_ne_nil hD1ne
        have hwd : isWs d = false := by
          apply dropWhile_head_false (fun c => isWs c) s
          rw [hD, hdt]
        rw [hdt] at hd1
        simp only [List.head?] at hd1
        cases hd1
        simp [hwd]
    rw [← hA] at hstep1 ⊢
    rw [hstep1, List.reverse_reverse, dropWhile_idem]


theorem stripCR_append13 (l : List Nat) : stripCR (l ++ [13]) = l := by
  unfold stripCR
  rw [List.reverse_append]
  simp

theorem mem_of_mem_stripCR (s : List Nat) (c : Nat) (h : c ∈ stripCR s) : c ∈ s := by
  unfold stripCR at h
  cases hr : s.reverse with
  | nil => rw [hr] at h; exact h
  | cons a t =>
    rw [hr] at h
    by_cases ha : a = 13
    · subst ha
      simp only at h
      rw [← List.reverse_reverse s, hr]
      rw [List.mem_reverse] at h ⊢
      simp [h]
    · have : (match (a :: t : List Nat) with
        | 13 :: t => t.reverse
        | _ => s) = s := by
        cases a with
        | zero => rfl
        | succ n =>
          cases n with
          | zero => rfl
          | succ n2 =>
            match n2, ha with
            | 0, ha => rfl
            | 1, ha => rfl
            | 2, ha => rfl
            | 3, ha => rfl
            | 4, ha => rfl
            | 5, ha => rfl
            | 6, ha => rfl
            | 7, ha => rfl
            | 8, ha => rfl
            | 9, ha => rfl
            | 10, ha => rfl
            | 11, ha => exact absurd rfl ha
            | (n+12), ha => rfl
      rw [this] at h
      exact h

theorem splitNL_ne_nil (s : List Nat) : splitNL s ≠ [] := by
  cases s with
  | nil => simp [splitNL]
  | cons c t =>
    rw [splitNL]
    split
    · simp
    · cases h : splitNL t with
      | nil => simp
      | cons a b => simp

theorem splitNL_no_nl (s : List Nat) : ∀ seg ∈ splitNL s, 10 ∉ seg := by
  induction s with
  | nil =>
    intro seg hseg
    simp [splitNL] at hseg
    simp [hseg]
  | cons c t ih =>
    intro seg hseg
    rw [splitNL] at hseg
    by_cases hc : c = 10
    · rw [if_pos hc] at hseg
      cases hseg with
      | head => simp
      | tail _ h => exact ih seg h
    · rw [if_neg hc] at hseg
      cases hsp : splitNL t with
      | nil => exact absurd hsp (splitNL_ne_nil t)
      | cons a b =>
        rw [hsp] at hseg
        cases hseg with
        | head =>
          intro hmem
          cases hmem with
          | head => exact hc rfl
          | tail _ h => exact ih a (by rw [hsp]; simp) h
        | tail _ h => exact ih seg (by rw [hsp]; exact List.mem_cons_of_mem a h)

theorem splitNL_mem (s : List Nat) : ∀ seg ∈ splitNL s, ∀ c ∈ seg, c ∈ s := by
  induction s with
  | nil =>
    intro seg hseg
    simp [splitNL] at hseg
    simp [hseg]
  | cons x t ih =>
    intro seg hseg c hc
    rw [splitNL] at hseg
    by_cases hx : x = 10
    · rw [if_pos hx] at hseg
      cases hseg with
      | head => simp at hc
      | tail _ h => exact List.mem_cons_of_mem x (ih seg h c hc)
    · rw [if_neg hx] at hseg
      cases hsp : splitNL t with
      | nil => exact absurd hsp (splitNL_ne_nil t)
      | cons a b =>
        rw [hsp] at hseg
        cases hseg with
        | head =>
          cases hc with
          | head => simp
          | tail _ h2 => exact List.mem_cons_of_mem x (ih a (by rw [hsp]; simp) c h2)
        | tail _ h => exact List.mem_cons_of_mem x (ih seg (by rw [hsp]; exact List.mem_cons_of_mem a h) c hc)

theorem splitNL_of_no_nl (l : List Nat) (h : 10 ∉ l) : splitNL l = [l] := by
  induction l with
  | nil => rfl
  | cons c t ih =>
    rw [splitNL]
    rw [if_neg (by intro hc; exact h (by simp [hc]))]
    rw [ih (by intro hm; exact h (by simp [hm]))]

theorem splitNL_append_nl (l rest : List Nat) (h : 10 ∉ l) :
    splitNL (l ++ 10 :: rest) = l :: splitNL rest := by
  induction l with
  | nil =>
    rw [List.nil_append, splitNL]
    simp
  | cons c t ih =>
    rw [List.cons_append, splitNL]
    rw [if_neg (by intro hc; exact h (by simp [hc]))]
    rw [ih (by intro hm; exact h (by simp [hm]))]

theorem lines_mem (s : List Nat) : ∀ l ∈ lines s, ∀ c ∈ l, c ∈ s := by
  intro l hl c hc
  unfold lines at hl
  rw [List.mem_append] at hl
  cases hl with
  | inl h =>
    rw [List.mem_map] at h
    obtain ⟨seg, hseg, hstrip⟩ := h
    have hsegmem : seg ∈ splitNL s := List.dropLast_subset _ hseg
    exact splitNL_mem s seg hsegmem c (mem_of_mem_stripCR seg c (hstrip ▸ hc))
  | inr h =>
    cases hgl : (splitNL s).getLast? with
    | none => rw [hgl] at h; simp at h
    | some last =>
      rw [hgl] at h
      by_cases hcase : last = []
      · rw [hcase] at h
        simp at h
      · simp only [hcase, if_neg] at h
        have : l = last := by
          cases hlast : (last : List Nat) with
          | nil => exact absurd hlast hcase
          | cons a b =>
            rw [hlast] at h
            simp at h
            exact h
        subst this
        exact splitNL_mem s l (List.mem_of_getLast?_eq_some hgl) c hc

theorem lines_no_nl (s : List Nat) : ∀ l ∈ lines s, 10 ∉ l := by
  intro l hl
  unfold lines at hl
  rw [List.mem_append] at hl
  cases hl with
  | inl h =>
    rw [List.mem_map] at h
    obtain ⟨seg, hseg, hstrip⟩ := h
    have hsegmem : seg ∈ splitNL s := List.dropLast_subset _ hseg
    intro hc
    exact splitNL_no_nl s seg hsegmem (mem_of_mem_stripCR seg 10 (hstrip ▸ hc))
  | inr h =>
    cases hgl : (splitNL s).getLast? with
    | none => rw [hgl] at h; simp at h
    | some last =>
      rw [hgl] at h
      by_cases hcase : last = []
      · rw [hcase] at h
        simp at h
      · have : l = last := by
          cases hlast : (last : List Nat) with
          | nil => exact absurd hlast hcase
          | cons a b =>
            rw [hlast] at h
            simp at h
            exact h
        subst this
        exact splitNL_no_nl s l (List.mem_of_getLast?_eq_some hgl)

/-- Join lines with CRLF separators (the inverse image of lines used to
describe the serializer output). -/
def joinCRLF : List (List Nat) → List Nat
  | [] => []
  | [l] => l
  | l :: ls => l ++ [13, 10] ++ joinCRLF ls

theorem splitNL_joinCRLF (ls : List (List Nat)) (hne : ls ≠ [])
    (h10 : ∀ l ∈ ls, 10 ∉ l) :
    splitNL (joinCRLF ls) = ls.dropLast.map (fun l => l ++ [13]) ++ [ls.getLast hne] := by
  induction ls with
  | nil => exact absurd rfl hne
  | cons l ls ih =>
    cases ls with
    | nil =>
      simp only [joinCRLF, List.dropLast_single, List.map_nil, List.nil_append,
        List.getLast_singleton]
      rw [splitNL_of_no_nl l (h10 l (by simp))]
    | cons l2 ls2 =>
      have hjoin : joinCRLF (l :: l2 :: ls2) = (l ++ [13]) ++ 10 :: joinCRLF (l2 :: ls2) := by
        show l ++ [13, 10] ++ joinCRLF (l2 :: ls2) = (l ++ [13]) ++ 10 :: joinCRLF (l2 :: ls2)
        simp
      rw [hjoin, splitNL_append_nl _ _ (by
        intro hm
        rw [List.mem_append] at hm
        cases hm with
        | inl h => exact h10 l (by simp) h
        | inr h => simp at h)]
      rw [ih (by simp) (fun x hx => h10 x (by simp [hx]))]
      rw [List.dropLast_cons_of_ne_nil (x := l) (l := l2 :: ls2) (by simp)]
      rw [show (l :: l2 :: ls2).getLast hne = (l2 :: ls2).getLast (by simp) from
        List.getLast_cons _]
      simp

theorem lines_joinCRLF (ls : List (List Nat)) (hne : ls ≠ [])
    (h10 : ∀ l ∈ ls, 10 ∉ l) (hnonempty : ∀ l ∈ ls, l ≠ []) :
    lines (joinCRLF ls) = ls := by
  unfold lines
  rw [splitNL_joinCRLF ls hne h10]
  have hlast_ne : ls.getLast hne ≠ [] := hnonempty _ (List.getLast_mem hne)
  rw [List.dropLast_concat, List.getLast?_concat]
  have hmap : (ls.dropLast.map (fun l => l ++ [13])).map stripCR = ls.dropLast := by
    rw [List.map_map]
    have : stripCR ∘ (fun l => l ++ [13]) = id := by
      funext x
      simp [Function.comp, stripCR_append13]
    rw [this, List.map_id]
  rw [hmap]
  cases hl : ls.getLast hne with
  | nil => exact absurd hl hlast_ne
  | cons a b =>
    simp only
    rw [← hl]
    exact List.dropLast_concat_getLast hne

theorem takeWhile_all {α : Type} (p : α → Bool) (t : List α) (h : ∀ c ∈ t, p c = true) :
    t.takeWhile p = t := by
  induction t with
  | nil => rfl
  | cons a r ih =>
    rw [List.takeWhile_cons_of_pos (by simp [h a (by simp)])]
    rw [ih (fun c hc => h c (by simp [hc]))]

theorem dropWhile_all {α : Type} (p : α → Bool) (t : List α) (h : ∀ c ∈ t, p c = true) :
    t.dropWhile p = [] := by
  induction t with
  | nil => rfl
  | cons a r ih =>
    rw [List.dropWhile_cons_of_pos (by simp [h a (by simp)])]
    exact ih (fun c hc => h c (by simp [hc]))

theorem takeWhile_middle {α : Type} (p : α → Bool) (x : α) (r : List α) (hx : p x = false) :
    ∀ t, (∀ c ∈ t, p c = true) →
    (t ++ x :: r).takeWhile p = t ∧ (t ++ x :: r).dropWhile p = x :: r := by
  intro t
  induction t with
  | nil =>
    intro _
    constructor
    · rw [List.nil_append, List.takeWhile_cons_of_neg (by simp [hx])]
    · rw [List.nil_append, List.dropWhile_cons_of_neg (by simp [hx])]
  | cons a u ih =>
    intro h
    have hrest := ih (fun c hc => h c (by simp [hc]))
    constructor
    · rw [List.cons_append, List.takeWhile_cons_of_pos (by simp [h a (by simp)])]
      rw [hrest.1]
    · rw [List.cons_append, List.dropWhile_cons_of_pos (by simp [h a (by simp)])]
      exact hrest.2

theorem splitWsTW_single (tok : List Nat) (hne : tok ≠ []) (hws : ∀ c ∈ tok, isWs c = false) :
    splitWsTW tok = [tok] := by
  cases tok with
  | nil => exact absurd rfl hne
  | cons c t =>
    rw [splitWsTW]
    rw [if_neg (by simp [hws c (by simp)])]
    rw [takeWhile_all _ t (by intro x hx; simp [hws x (by simp [hx])])]
    rw [dropWhile_all _ t (by intro x hx; simp [hws x (by simp [hx])])]
    rw [show splitWsTW [] = [] from by rw [splitWsTW]]

theorem splitWsTW_token (tok rest : List Nat) (hne : tok ≠ [])
    (hws : ∀ c ∈ tok, isWs c = false) :
    splitWsTW (tok ++ 32 :: rest) = tok :: splitWsTW rest := by
  cases tok with
  | nil => exact absurd rfl hne
  | cons c t =>
    rw [List.cons_append, splitWsTW]
    rw [if_neg (by simp [hws c (by simp)])]
    have hmid := takeWhile_middle (fun x => decide (¬ isWs x = true)) 32 rest
      (by simp [isWs]) t (by intro x hx; simp [hws x (by simp [hx])])
    rw [hmid.1, hmid.2]
    have : splitWsTW (32 :: rest) = splitWsTW rest := by
      rw [splitWsTW]
      rw [if_pos (by simp [isWs])]
    rw [this]

theorem splitWsTW_props (s : List Nat) :
    ∀ tok ∈ splitWsTW s, tok ≠ [] ∧ ∀ c ∈ tok, isWs c = false ∧ c ∈ s := by
  induction s using splitWsTW.induct with
  | case1 =>
    intro tok htok
    simp [splitWsTW] at htok
  | case2 c t hc ih =>
    intro tok htok
    rw [splitWsTW, if_pos hc] at htok
    obtain ⟨h1, h2⟩ := ih tok htok
    exact ⟨h1, fun x hx => ⟨(h2 x hx).1, List.mem_cons_of_mem c (h2 x hx).2⟩⟩
  | case3 c t hc ih =>
    intro tok htok
    rw [splitWsTW, if_neg hc] at htok
    cases htok with
    | head =>
      refine ⟨by simp, ?_⟩
      intro x hx
      cases hx with
      | head => exact ⟨by simpa using hc, by simp⟩
      | tail _ h =>
        have hp := List.mem_takeWhile_imp h
        have hm := List.takeWhile_subset (fun x => decide (¬ isWs x = true)) h
        exact ⟨by simpa using hp, List.mem_cons_of_mem c hm⟩
    | tail _ h =>
      obtain ⟨h1, h2⟩ := ih tok h
      refine ⟨h1, fun x hx => ⟨(h2 x hx).1, ?_⟩⟩
      have := (h2 x hx).2
      exact List.mem_cons_of_mem c (List.dropWhile_subset _ this)

theorem splitWsTW_nil : splitWsTW [] = [] := by rw [splitWsTW]

theorem splitWsTW_cons (c : Nat) (t : List Nat) :
    splitWsTW (c :: t) =
      if isWs c then splitWsTW t
      else (c :: t.takeWhile (fun x => ¬ isWs x))
        :: splitWsTW (t.dropWhile (fun x => ¬ isWs x)) := by
  rw [splitWsTW]

theorem splitWsAux_eq_tw (s : List Nat) : ∀ acc : List Nat,
    splitWsAux acc s =
      if acc = [] then splitWsTW s
      else (acc.reverse ++ s.takeWhile (fun x => ¬ isWs x))
        :: splitWsTW (s.dropWhile (fun x => ¬ isWs x)) := by
  induction s with
  | nil =>
    intro acc
    by_cases ha : acc = []
    · rw [splitWsAux, if_pos ha, if_pos ha, splitWsTW_nil]
    · rw [splitWsAux, if_neg ha, if_neg ha]
      simp [splitWsTW_nil]
  | cons c t ih =>
    intro acc
    by_cases hc : isWs c = true
    · rw [splitWsAux]
      simp only [hc, if_true]
      by_cases ha : acc = []
      · rw [if_pos ha, if_pos ha, ih [], if_pos rfl]
        rw [splitWsTW_cons]
        simp only [hc, if_true]
      · rw [if_neg ha, if_neg ha, ih [], if_pos rfl]
        rw [List.takeWhile_cons_of_neg (by simp [hc]), List.dropWhile_cons_of_neg (by simp [hc])]
        rw [splitWsTW_cons]
        simp only [hc, if_true]
        simp
    · rw [splitWsAux]
      simp only [hc, if_false]
      rw [ih (c :: acc), if_neg (by simp)]
      by_cases ha : acc = []
      · subst ha
        rw [if_pos rfl, splitWsTW_cons]
        simp only [hc, if_false]
        simp
      · rw [if_neg ha]
        rw [List.takeWhile_cons_of_pos (by simp [hc]), List.dropWhile_cons_of_pos (by simp [hc])]
        simp

theorem splitWs_eq_tw (s : List Nat) : splitWs s = splitWsTW s := by
  rw [splitWs, splitWsAux_eq_tw s [], if_pos rfl]

theorem splitWs_single (tok : List Nat) (hne : tok ≠ []) (hws : ∀ c ∈ tok, isWs c = false) :
    splitWs tok = [tok] := by
  rw [splitWs_eq_tw]
  exact splitWsTW_single tok hne hws

theorem splitWs_token (tok rest : List Nat) (hne : tok ≠ [])
    (hws : ∀ c ∈ tok, isWs c = false) :
    splitWs (tok ++ 32 :: rest) = tok :: splitWs rest := by
  rw [splitWs_eq_tw, splitWs_eq_tw]
  exact splitWsTW_token tok rest hne hws

theorem splitWs_props (s : List Nat) :
    ∀ tok ∈ splitWs s, tok ≠ [] ∧ ∀ c ∈ tok, isWs c = false ∧ c ∈ s := by
  rw [splitWs_eq_tw]
  exact splitWsTW_props s

theorem splitOnce_props (sep : Nat) (s a b : List Nat) (h : splitOnce sep s = some (a, b)) :
    s = a ++ sep :: b ∧ sep ∉ a := by
  induction s generalizing a with
  | nil => simp [splitOnce] at h
  | cons c t ih =>
    rw [splitOnce] at h
    by_cases hc : c = sep
    · rw [if_pos hc] at h
      simp only [Option.some.injEq, Prod.mk.injEq] at h
      rw [← h.1, ← h.2, hc]
      simp
    · rw [if_neg hc] at h
      cases hsp : splitOnce sep t with
      | none => rw [hsp] at h; cases h
      | some p =>
        obtain ⟨pa, pb⟩ := p
        rw [hsp] at h
        simp only [Option.map_some', Option.some.injEq, Prod.mk.injEq] at h
        obtain ⟨h1, h2⟩ := h
        obtain ⟨hh1, hh2⟩ := ih pa (by rw [hsp, h2])
        constructor
        · rw [← h1, List.cons_append, ← hh1]
        · rw [← h1]
          intro hmem
          cases hmem with
          | head => exact hc rfl
          | tail _ hm => exact hh2 hm

theorem splitOnce_append (sep : Nat) (k rest : List Nat) (hk : sep ∉ k) :
    splitOnce sep (k ++ sep :: rest) = some (k, rest) := by
  induction k with
  | nil => rw [List.nil_append, splitOnce, if_pos rfl]
  | cons c t ih =>
    rw [List.cons_append, splitOnce]
    rw [if_neg (by intro hc; exact hk (by simp [hc]))]
    rw [ih (by intro hm; exact hk (by simp [hm]))]
    rfl

/-! ## UTF-8 encode and decode lemmas -/

theorem utf8Encode_nil : utf8Encode [] = [] := rfl

theorem utf8Encode_cons (c : Nat) (t : List Nat) :
    utf8Encode (c :: t) = utf8EncodeChar c ++ utf8Encode t := by
  simp [utf8Encode]

theorem utf8Encode_append (a b : List Nat) :
    utf8Encode (a ++ b) = utf8Encode a ++ utf8Encode b := by
  simp [utf8Encode]

theorem utf8EncodeChar_ne_nil (c : Nat) : utf8EncodeChar c ≠ [] := by
  unfold utf8EncodeChar
  split
  · simp
  · split
    · simp
    · split <;> simp

theorem utf8Encode_ne_nil (l : List Nat) (h : l ≠ []) : utf8Encode l ≠ [] := by
  cases l with
  | nil => exact absurd rfl h
  | cons c t =>
    rw [utf8Encode_cons]
    intro he
    rw [List.append_eq_nil] at he
    exact utf8EncodeChar_ne_nil c he.1

theorem utf8EncodeChar_mem (c x : Nat) (hx : x ∈ utf8EncodeChar c) :
    (c < 0x80 ∧ x = c) ∨ 0x80 ≤ x := by
  unfold utf8EncodeChar at hx
  by_cases h1 : c < 0x80
  · rw [if_pos h1] at hx
    left
    exact ⟨h1, by simpa using hx⟩
  · rw [if_neg h1] at hx
    right
    by_cases h2 : c < 0x800
    · rw [if_pos h2] at hx
      simp only [List.mem_cons, List.not_mem_nil, or_false] at hx
      rcases hx with h | h <;> omega
    · rw [if_neg h2] at hx
      by_cases h3 : c < 0x10000
      · rw [if_pos h3] at hx
        simp only [List.mem_cons, List.not_mem_nil, or_false] at hx
        rcases hx with h | h | h <;> omega
      · rw [if_neg h3] at hx
        simp only [List.mem_cons, List.not_mem_nil, or_false] at hx
        rcases hx with h | h | h | h <;> omega

theorem mem_utf8Encode (l : List Nat) (x : Nat) (hx : x ∈ utf8Encode l) :
    ∃ c ∈ l, x ∈ utf8EncodeChar c := by
  unfold utf8Encode at hx
  rw [List.mem_flatten] at hx
  obtain ⟨w, hw, hxw⟩ := hx
  rw [List.mem_map] at hw
  obtain ⟨c, hc, hcw⟩ := hw
  exact ⟨c, hc, hcw ▸ hxw⟩

theorem utf8Encode_no10 (l : List Nat) (h : 10 ∉ l) : 10 ∉ utf8Encode l := by
  intro hx
  obtain ⟨c, hc, hxc⟩ := mem_utf8Encode l 10 hx
  rcases utf8EncodeChar_mem c 10 hxc with ⟨_, he⟩ | hge
  · exact h (by rw [he]; exact hc)
  · omega

theorem utf8Decode_encodeChar (c : Nat) (hs : Scalar c) (rest : List Nat) :
    utf8Decode (utf8EncodeChar c ++ rest) = (utf8Decode rest).map (fun t => c :: t) := by
  obtain ⟨hlt, hsur⟩ := hs
  rw [utf8EncodeChar]
  by_cases h1 : c < 0x80
  · rw [if_pos h1]
    show utf8Decode (c :: rest) = _
    rw [utf8Decode, if_pos h1]
  · rw [if_neg h1]
    by_cases h2 : c < 0x800
    · rw [if_pos h2]
      show utf8Decode ((0xC0 + c / 64) :: (0x80 + c % 64) :: rest) = _
      rw [utf8Decode]
      rw [if_neg (by omega), if_neg (by omega), if_pos (by omega)]
      rw [utf8Dec2]
      rw [if_pos (by simp only [Bool.and_eq_true, decide_eq_true_eq]; omega)]
      have he : (0xC0 + c / 64 - 0xC0) * 64 + (0x80 + c % 64 - 0x80) = c := by omega
      rw [he]
    · rw [if_neg h2]
      by_cases h3 : c < 0x10000
      · rw [if_pos h3]
        show utf8Decode
            ((0xE0 + c / 4096) :: (0x80 + c / 64 % 64) :: (0x80 + c % 64) :: rest) = _
        rw [utf8Decode]
        rw [if_neg (by omega), if_neg (by omega), if_neg (by omega), if_pos (by omega)]
        rw [utf8Dec3]
        rw [if_pos (by
          simp only [Bool.and_eq_true, decide_eq_true_eq]
          refine ⟨⟨⟨?_, ?_⟩, ?_⟩, ?_⟩
          · split
            · rename_i hq
              omega
            · omega
          · split
            · rename_i hq
              omega
            · omega
          · omega
          · omega)]
        have he : (0xE0 + c / 4096 - 0xE0) * 4096 + (0x80 + c / 64 % 64 - 0x80) * 64
            + (0x80 + c % 64 - 0x80) = c := by omega
        rw [he]
      · rw [if_neg h3]
        show utf8Decode
            ((0xF0 + c / 262144) :: (0x80 + c / 4096 % 64) :: (0x80 + c / 64 % 64)
              :: (0x80 + c % 64) :: rest) = _
        rw [utf8Decode]
        rw [if_neg (by omega), if_neg (by omega), if_neg (by omega), if_neg (by omega),
          if_pos (by omega)]
        rw [utf8Dec4]
        rw [if_pos (by
          simp only [Bool.and_eq_true, decide_eq_true_eq]
          refine ⟨⟨⟨⟨⟨?_, ?_⟩, ?_⟩, ?_⟩, ?_⟩, ?_⟩
          · split
            · rename_i hq
              omega
            · omega
          · split
            · rename_i hq
              omega
            · omega
          · omega
          · omega
          · omega
          · omega)]
        have he : (0xF0 + c / 262144 - 0xF0) * 262144 + (0x80 + c / 4096 % 64 - 0x80) * 4096
            + (0x80 + c / 64 % 64 - 0x80) * 64 + (0x80 + c % 64 - 0x80) = c := by omega
        rw [he]

set_option maxRecDepth 8192 in
theorem utf8Decode_scalar_aux : ∀ (n : Nat) (d : List Nat), d.length ≤ n →
    ∀ t, utf8Decode d = some t → ∀ c ∈ t, Scalar c := by
  intro n
  induction n with
  | zero =>
    intro d hd t ht c hc
    cases d with
    | nil =>
      rw [utf8Decode] at ht
      cases ht
      simp at hc
    | cons b rest => simp at hd
  | succ n ih =>
    intro d hd t ht c hc
    cases d with
    | nil =>
      rw [utf8Decode] at ht
      cases ht
      simp at hc
    | cons b rest =>
      rw [utf8Decode] at ht
      by_cases h1 : b < 0x80
      · rw [if_pos h1] at ht
        cases hr : utf8Decode rest with
        | none => rw [hr] at ht; cases ht
        | some t2 =>
          rw [hr] at ht
          simp only [Option.map_some', Option.some.injEq] at ht
          subst ht
          rcases List.mem_cons.mp hc with hcb | hct
          · subst hcb
            exact ⟨by omega, by omega⟩
          · exact ih rest (by simp at hd; omega) t2 hr c hct
      · rw [if_neg h1] at ht
        by_cases h2 : b < 0xC2
        · rw [if_pos h2] at ht; cases ht
        · rw [if_neg h2] at ht
          by_cases h3 : b < 0xE0
          · rw [if_pos h3] at ht
            cases rest with
            | nil => rw [utf8Dec2] at ht; cases ht
            | cons b1 r =>
              rw [utf8Dec2] at ht
              by_cases hcnd : (0x80 ≤ b1 && b1 < 0xC0) = true
              · rw [if_pos hcnd] at ht
                simp only [Bool.and_eq_true, decide_eq_true_eq] at hcnd
                cases hr : utf8Decode r with
                | none => rw [hr] at ht; cases ht
                | some t2 =>
                  rw [hr] at ht
                  simp only [Option.map_some', Option.some.injEq] at ht
                  subst ht
                  rcases List.mem_cons.mp hc with hcb | hct
                  · subst hcb
                    exact ⟨by omega, by omega⟩
                  · exact ih r (by simp at hd; omega) t2 hr c hct
              · rw [if_neg hcnd] at ht; cases ht
          · rw [if_neg h3] at ht
            by_cases h4 : b < 0xF0
            · rw [if_pos h4] at ht
              match rest, ht with
              | b1 :: b2 :: r, ht =>
                rw [utf8Dec3] at ht
                by_cases hcnd : ((if b = 0xE0 then 0xA0 else 0x80) ≤ b1
                    && b1 ≤ (if b = 0xED then 0x9F else 0xBF)
                    && 0x80 ≤ b2 && b2 < 0xC0) = true
                · rw [if_pos hcnd] at ht
                  simp only [Bool.and_eq_true, decide_eq_true_eq] at hcnd
                  have hhi := hcnd.1.1.2
                  have hlo2 := hcnd.1.2
                  have hhi2 := hcnd.2
                  cases hr : utf8Decode r with
                  | none => rw [hr] at ht; cases ht
                  | some t2 =>
                    rw [hr] at ht
                    simp only [Option.map_some', Option.some.injEq] at ht
                    subst ht
                    rcases List.mem_cons.mp hc with hcb | hct
                    · subst hcb
                      by_cases hbd : b = 0xED
                      · rw [if_pos hbd] at hhi
                        subst hbd
                        exact ⟨by omega, by omega⟩
                      · rw [if_neg hbd] at hhi
                        have hbne : b ≠ 0xED := hbd
                        exact ⟨by omega, by omega⟩
                    · exact ih r (by simp at hd; omega) t2 hr c hct
                · rw [if_neg hcnd] at ht; cases ht
            · rw [if_neg h4] at ht
              by_cases h5 : b < 0xF5
              · rw [if_pos h5] at ht
                match rest, ht with
                | b1 :: b2 :: b3 :: r, ht =>
                  rw [utf8Dec4] at ht
                  by_cases hcnd : ((if b = 0xF0 then 0x90 else 0x80) ≤ b1
                      && b1 ≤ (if b = 0xF4 then 0x8F else 0xBF)
                      && 0x80 ≤ b2 && b2 < 0xC0 && 0x80 ≤ b3 && b3 < 0xC0) = true
                  · rw [if_pos hcnd] at ht
                    simp only [Bool.and_eq_true, decide_eq_true_eq] at hcnd
                    have hhi := hcnd.1.1.1.1.2
                    cases hr : utf8Decode r with
                    | none => rw [hr] at ht; cases ht
                    | some t2 =>
                      rw [hr] at ht
                      simp only [Option.map_some', Option.some.injEq] at ht
                      subst ht
                      rcases List.mem_cons.mp hc with hcb | hct
                      · subst hcb
                        have hlo := hcnd.1.1.1.1.1
                        by_cases hbf : b = 0xF4
                        · rw [if_pos hbf] at hhi
                          subst hbf
                          exact ⟨by omega, by omega⟩
                        · rw [if_neg hbf] at hhi
                          have hbne : b ≠ 0xF4 := hbf
                          by_cases hb0 : b = 0xF0
                          · rw [if_pos hb0] at hlo
                            subst hb0
                            exact ⟨by omega, by omega⟩
                          · rw [if_neg hb0] at hlo
                            have hbne0 : b ≠ 0xF0 := hb0
                            exact ⟨by omega, by omega⟩
                      · exact ih r (by simp at hd; omega) t2 hr c hct
                  · rw [if_neg hcnd] at ht; cases ht
              · rw [if_neg h5] at ht; cases ht

theorem utf8Decode_scalar (d t : List Nat) (h : utf8Decode d = some t) :
    ∀ c ∈ t, Scalar c :=
  utf8Decode_scalar_aux d.length d (Nat.le_refl _) t h

theorem utf8Decode_encode (l : List Nat) (h : ∀ c ∈ l, Scalar c) :
    utf8Decode (utf8Encode l) = some l := by
  induction l with
  | nil => rfl
  | cons c t ih =>
    rw [utf8Encode_cons, utf8Decode_encodeChar c (h c (by simp)),
      ih (fun x hx => h x (by simp [hx]))]
    rfl

/-! ## findHdrEnd over serialized header blocks -/

theorem utf8Encode_joinCRLF (ls : List (List Nat)) :
    utf8Encode (joinCRLF ls) = joinCRLF (ls.map utf8Encode) := by
  induction ls with
  | nil => rfl
  | cons l t ih =>
    cases t with
    | nil => rfl
    | cons l2 t2 =>
      show utf8Encode (l ++ [13, 10] ++ joinCRLF (l2 :: t2))
        = utf8Encode l ++ [13, 10] ++ joinCRLF ((l2 :: t2).map utf8Encode)
      rw [utf8Encode_append, utf8Encode_append, ih]
      rw [show utf8Encode [13, 10] = [13, 10] from rfl]

theorem joinCRLF_mem (ls : List (List Nat)) (c : Nat) (hc : c ∈ joinCRLF ls) :
    (∃ l ∈ ls, c ∈ l) ∨ c = 13 ∨ c = 10 := by
  induction ls with
  | nil => simp [joinCRLF] at hc
  | cons l t ih =>
    cases t with
    | nil =>
      left
      exact ⟨l, by simp, hc⟩
    | cons l2 t2 =>
      rw [show joinCRLF (l :: l2 :: t2) = l ++ [13, 10] ++ joinCRLF (l2 :: t2) from rfl] at hc
      simp only [List.append_assoc, List.mem_append] at hc
      rcases hc with hc | hc | hc
      · left
        exact ⟨l, by simp, hc⟩
      · simp only [List.mem_cons, List.not_mem_nil, or_false] at hc
        right
        exact hc
      · rcases ih hc with ⟨w, hw, hcw⟩ | h
        · left
          exact ⟨w, by simp [hw], hcw⟩
        · right
          exact h

theorem findHdrEnd_pat (B : List Nat) :
    findHdrEnd ([13, 10, 13, 10] ++ B) = some 0 := by
  show findHdrEnd (13 :: 10 :: 13 :: 10 :: B) = some 0
  rw [findHdrEnd, if_pos (by simp)]

theorem findHdrEnd_localize (l : List Nat) (rest : List Nat) (h10 : 10 ∉ l)
    (hhd : rest.head? ≠ some 10) :
    findHdrEnd (l ++ rest) = (findHdrEnd rest).map (fun i => i + l.length) := by
  induction l with
  | nil =>
    rw [List.nil_append]
    cases h : findHdrEnd rest <;> simp
  | cons c t ih =>
    rw [List.cons_append, findHdrEnd]
    have hwin : ¬ ((c :: (t ++ rest)).take 4 = [13, 10, 13, 10]) := by
      intro hq
      cases hw : t ++ rest with
      | nil =>
        rw [hw] at hq
        simp at hq
      | cons x w =>
        rw [hw] at hq
        simp at hq
        cases t with
        | nil =>
          rw [List.nil_append] at hw
          exact hhd (by rw [hw]; simp [hq.2.1])
        | cons y v =>
          rw [List.cons_append] at hw
          have hyx : y = x := (List.cons.injEq _ _ _ _).mp hw |>.1
          exact h10 (by simp [hyx, hq.2.1])
    rw [if_neg hwin]
    rw [ih (fun hm => h10 (List.mem_cons_of_mem c hm))]
    cases h : findHdrEnd rest with
    | none => simp
    | some v =>
      simp only [Option.map_some', Option.some.injEq, List.length_cons]
      omega

theorem findHdrEnd_crlf_step (X : List Nat) (hX : X.take 2 ≠ [13, 10]) :
    findHdrEnd (13 :: 10 :: X) = (findHdrEnd X).map (fun i => i + 2) := by
  rw [findHdrEnd]
  rw [if_neg (by
    intro hq
    apply hX
    simpa using hq)]
  rw [findHdrEnd]
  rw [if_neg (by
    intro hq
    simp at hq)]
  cases h : findHdrEnd X with
  | none => simp
  | some v =>
    simp only [Option.map_some', Option.map_map, Option.some.injEq]

theorem take2_ne_crlf (l2 Z : List Nat) (hne : l2 ≠ []) (h10 : 10 ∉ l2)
    (hhd : Z.head? ≠ some 10) : (l2 ++ Z).take 2 ≠ [13, 10] := by
  cases l2 with
  | nil => exact absurd rfl hne
  | cons a u =>
    intro hq
    rw [List.cons_append] at hq
    cases hw : u ++ Z with
    | nil =>
      rw [hw] at hq
      simp at hq
    | cons x w =>
      rw [hw] at hq
      simp at hq
      cases u with
      | nil =>
        rw [List.nil_append] at hw
        exact hhd (by rw [hw]; simp [hq.2])
      | cons y v =>
        rw [List.cons_append] at hw
        have hyx : y = x := (List.cons.injEq _ _ _ _).mp hw |>.1
        exact h10 (by simp [hyx, hq.2])

theorem findHdrEnd_joinCRLF (bls : List (List Nat)) (B : List Nat) (hne : bls ≠ [])
    (hl : ∀ l ∈ bls, l ≠ [] ∧ 10 ∉ l) :
    findHdrEnd (joinCRLF bls ++ [13, 10, 13, 10] ++ B) = some (joinCRLF bls).length := by
  induction bls with
  | nil => exact absurd rfl hne
  | cons l ls ih =>
    cases ls with
    | nil =>
      show findHdrEnd (joinCRLF [l] ++ [13, 10, 13, 10] ++ B) = some (joinCRLF [l]).length
      rw [show joinCRLF [l] = l from rfl]
      rw [List.append_assoc]
      rw [findHdrEnd_localize l ([13, 10, 13, 10] ++ B) (hl l (by simp)).2 (by simp)]
      rw [findHdrEnd_pat B]
      simp
    | cons l2 ls2 =>
      have hj : joinCRLF (l :: l2 :: ls2) = l ++ (13 :: 10 :: joinCRLF (l2 :: ls2)) := by
        rw [show joinCRLF (l :: l2 :: ls2) = l ++ [13, 10] ++ joinCRLF (l2 :: ls2) from rfl]
        simp
      rw [hj]
      rw [List.append_assoc, List.append_assoc]
      rw [findHdrEnd_localize l _ (hl l (by simp)).2 (by simp)]
      rw [show (13 :: 10 :: joinCRLF (l2 :: ls2)) ++ ([13, 10, 13, 10] ++ B)
        = 13 :: 10 :: (joinCRLF (l2 :: ls2) ++ [13, 10, 13, 10] ++ B) from by simp]
      have hZtake : (joinCRLF (l2 :: ls2) ++ [13, 10, 13, 10] ++ B).take 2 ≠ [13, 10] := by
        have hl2 := hl l2 (by simp)
        cases ls2 with
        | nil =>
          rw [show joinCRLF [l2] = l2 from rfl, List.append_assoc]
          exact take2_ne_crlf l2 _ hl2.1 hl2.2 (by simp)
        | cons l3 ls3 =>
          rw [show joinCRLF (l2 :: l3 :: ls3) = l2 ++ [13, 10] ++ joinCRLF (l3 :: ls3) from rfl]
          rw [List.append_assoc, List.append_assoc, List.append_assoc]
          exact take2_ne_crlf l2 _ hl2.1 hl2.2 (by simp)
      rw [findHdrEnd_crlf_step _ hZtake]
      rw [show joinCRLF (l2 :: ls2) ++ [13, 10, 13, 10] ++ B
        = joinCRLF (l2 :: ls2) ++ ([13, 10, 13, 10] ++ B) from by simp] at hZtake ⊢
      rw [← List.append_assoc]
      rw [ih (by simp) (fun x hx => hl x (by simp [hx]))]
      simp only [Option.map_some', Option.some.injEq]
      simp only [List.length_append, List.length_cons]
      omega

/-! ## Shape of the serialized request -/

/-- The request line of a parsed request, as code points. -/
def reqLine (q : HttpRequest) : List Nat := q.method ++ [32] ++ q.path ++ [32] ++ q.version

/-- One serialized header line (without the CRLF), as code points. -/
def hdrLine (h : List Nat × List Nat) : List Nat := h.1 ++ [58, 32] ++ h.2

/-- The text lines of the serialized request head, in order. -/
def linesSeq (q : HttpRequest) : List (List Nat) := reqLine q :: q.headers.map hdrLine

theorem joinCRLF_append_crlf (ls : List (List Nat)) (hne : ls ≠ []) :
    joinCRLF ls ++ [13, 10] = (ls.map (fun l => l ++ [13, 10])).flatten := by
  induction ls with
  | nil => exact absurd rfl hne
  | cons l t ih =>
    cases t with
    | nil =>
      rw [show joinCRLF [l] = l from rfl]
      simp
    | cons l2 t2 =>
      rw [show joinCRLF (l :: l2 :: t2) = l ++ [13, 10] ++ joinCRLF (l2 :: t2) from rfl]
      rw [List.map_cons, List.flatten_cons, ← ih (by simp)]
      simp

theorem to_bytes_shape (q : HttpRequest) :
    q.to_bytes = utf8Encode (joinCRLF (linesSeq q)) ++ [13, 10, 13, 10] ++ q.body := by
  unfold HttpRequest.to_bytes
  have htext : q.method ++ [32] ++ q.path ++ [32] ++ q.version ++ [13, 10]
      ++ (q.headers.map (fun h => h.1 ++ [58, 32] ++ h.2 ++ [13, 10])).flatten ++ [13, 10]
      = joinCRLF (linesSeq q) ++ [13, 10, 13, 10] := by
    have hmap : q.headers.map (fun h => h.1 ++ [58, 32] ++ h.2 ++ [13, 10])
        = (q.headers.map hdrLine).map (fun l => l ++ [13, 10]) := by
      rw [List.map_map]
      rfl
    rw [hmap]
    cases hh : q.headers.map hdrLine with
    | nil =>
      rw [show linesSeq q = reqLine q :: q.headers.map hdrLine from rfl, hh]
      rw [show joinCRLF [reqLine q] = reqLine q from rfl]
      unfold reqLine
      simp
    | cons m ms =>
      rw [show linesSeq q = reqLine q :: q.headers.map hdrLine from rfl, hh]
      rw [show joinCRLF (reqLine q :: m :: ms) = reqLine q ++ [13, 10] ++ joinCRLF (m :: ms)
        from rfl]
      rw [← joinCRLF_append_crlf (m :: ms) (by simp)]
      unfold reqLine
      simp
  rw [htext, utf8Encode_append]
  rw [show utf8Encode [13, 10, 13, 10] = [13, 10, 13, 10] from rfl]

/-! ## Well-formed requests: what parse guarantees and to_bytes preserves -/

theorem methodOk_props (m : List Nat) (h : methodOk m = true) :
    m ≠ [] ∧ 10 ∉ m ∧ (∀ c ∈ m, isWs c = false) ∧ (∀ c ∈ m, Scalar c) := by
  unfold methodOk at h
  simp only [Bool.or_eq_true, beq_iff_eq] at h
  rcases h with ((((((((h | h) | h) | h) | h) | h) | h) | h) | h) <;> subst h <;>
    exact ⟨by decide, by decide, by decide, by decide⟩

theorem version_props (v : List Nat)
    (h : v = str2cp "HTTP/1.0" ∨ v = str2cp "HTTP/1.1") :
    v ≠ [] ∧ 10 ∉ v ∧ (∀ c ∈ v, isWs c = false) ∧ (∀ c ∈ v, Scalar c) := by
  rcases h with h | h <;> subst h <;>
    exact ⟨by decide, by decide, by decide, by decide⟩

theorem parseHeaderLines_props (ls : List (List Nat)) :
    ∀ p ∈ parseHeaderLines ls,
      ∃ ln ∈ ls, ∃ k0 v0, ln = k0 ++ 58 :: v0 ∧ 58 ∉ k0 ∧ p = (trim k0, trim v0) := by
  induction ls with
  | nil =>
    intro p hp
    simp [parseHeaderLines] at hp
  | cons ln t ih =>
    intro p hp
    rw [parseHeaderLines] at hp
    by_cases hln : ln = []
    · rw [if_pos hln] at hp
      simp at hp
    · rw [if_neg hln] at hp
      cases hsp : splitOnce 58 ln with
      | none =>
        rw [hsp] at hp
        obtain ⟨ln2, hln2, hrest⟩ := ih p hp
        exact ⟨ln2, List.mem_cons_of_mem ln hln2, hrest⟩
      | some kv =>
        obtain ⟨k, v⟩ := kv
        rw [hsp] at hp
        cases hp with
        | head =>
          obtain ⟨hsplit, hnot⟩ := splitOnce_props 58 ln k v hsp
          exact ⟨ln, by simp, k, v, hsplit, hnot, rfl⟩
        | tail _ hmem =>
          obtain ⟨ln2, hln2, hrest⟩ := ih p hmem
          exact ⟨ln2, List.mem_cons_of_mem ln hln2, hrest⟩

theorem parseHeaderLines_hdrLine (hs : List (List Nat × List Nat))
    (hprops : ∀ h ∈ hs, trim h.1 = h.1 ∧ trim h.2 = h.2 ∧ 58 ∉ h.1) :
    parseHeaderLines (hs.map hdrLine) = hs := by
  induction hs with
  | nil => rfl
  | cons p t ih =>
    rw [List.map_cons, parseHeaderLines]
    rw [if_neg (by simp [hdrLine])]
    rw [show hdrLine p = p.1 ++ 58 :: 32 :: p.2 from by simp [hdrLine]]
    rw [splitOnce_append 58 p.1 (32 :: p.2) (hprops p (by simp)).2.2]
    dsimp only
    rw [trim_cons_ws 32 p.2 (by decide)]
    rw [(hprops p (by simp)).1, (hprops p (by simp)).2.1]
    rw [ih (fun x hx => hprops x (List.mem_cons_of_mem p hx))]

/-- The declared content length of a request, as the server computes it. -/
def contentLen (q : HttpRequest) : Option Nat :=
  (getHdr q.headers (str2cp "Content-Length")).bind parseU64

/-- Requests in the image of parse: every field satisfies the constraints the
parser enforces, so serialization re-parses to the same request. -/
def WF (q : HttpRequest) : Prop :=
  methodOk q.method = true ∧
  q.path ≠ [] ∧
  (∀ c ∈ q.path, isWs c = false ∧ Scalar c) ∧
  (utf8Encode q.path).any (fun b => b < 0x20 || b == 0x7F) = false ∧
  (q.version = str2cp "HTTP/1.0" ∨ q.version = str2cp "HTTP/1.1") ∧
  (∀ h ∈ q.headers, trim h.1 = h.1 ∧ trim h.2 = h.2 ∧ 58 ∉ h.1 ∧ 10 ∉ h.1 ∧ 10 ∉ h.2 ∧
    (∀ c ∈ h.1, Scalar c) ∧ (∀ c ∈ h.2, Scalar c)) ∧
  (match contentLen q with
   | some len => q.body.length ≤ len
   | none => q.body = [])

theorem parse_wf (r : List Nat) (q : HttpRequest)
    (h : HttpRequest.parse r = some q) : WF q := by
  unfold HttpRequest.parse at h
  cases he : findHdrEnd r with
  | none => rw [he] at h; cases h
  | some e =>
    simp only [he] at h
    cases hd : utf8Decode (r.take e) with
    | none => rw [hd] at h; cases h
    | some t =>
      simp only [hd] at h
      cases hl : lines t with
      | nil => rw [hl] at h; cases h
      | cons rl rest =>
        simp only [hl] at h
        cases hsw : splitWs rl with
        | nil => simp only [hsw] at h; cases h
        | cons m r1 =>
          cases r1 with
          | nil => simp only [hsw] at h; cases h
          | cons path r2 =>
            cases r2 with
            | nil => simp only [hsw] at h; cases h
            | cons v extra =>
              simp only [hsw] at h
              by_cases hex : extra.isEmpty = true
              case neg => rw [if_pos (by simpa using hex)] at h; cases h
              rw [if_neg (by simpa using hex)] at h
              by_cases hmo : methodOk m = true
              case neg => rw [if_pos (by simpa using hmo)] at h; cases h
              rw [if_neg (by simpa using hmo)] at h
              by_cases hbc : (utf8Encode path).any (fun b => b < 0x20 || b == 0x7F) = true
              case pos => rw [if_pos hbc] at h; cases h
              rw [if_neg hbc] at h
              by_cases hvv : v = str2cp "HTTP/1.0" ∨ v = str2cp "HTTP/1.1"
              case neg => rw [if_pos hvv] at h; cases h
              rw [if_neg (by exact fun hc => hc hvv)] at h
              simp only [Option.some.injEq] at h
              have hmem_t : ∀ l2 ∈ lines t, ∀ c ∈ l2, Scalar c := by
                intro l2 hl2 c hc
                exact utf8Decode_scalar _ _ hd c (lines_mem t l2 hl2 c hc)
              have hrl_mem : rl ∈ lines t := by rw [hl]; simp
              have hpath := splitWs_props rl path (by rw [hsw]; simp)
              subst h
              refine ⟨hmo, hpath.1, ?_, by simpa using hbc, hvv, ?_, ?_⟩
              · intro c hc
                exact ⟨(hpath.2 c hc).1, hmem_t rl hrl_mem c (hpath.2 c hc).2⟩
              · intro p hp
                obtain ⟨ln, hln, k0, v0, hsplit, hk0, hpkv⟩ :=
                  parseHeaderLines_props rest p hp
                have hln_t : ln ∈ lines t := by rw [hl]; exact List.mem_cons_of_mem rl hln
                have hln10 : 10 ∉ ln := lines_no_nl t ln hln_t
                have hk10 : 10 ∉ k0 := fun hm => hln10 (by rw [hsplit]; simp [hm])
                have hv10 : 10 ∉ v0 := fun hm => hln10 (by rw [hsplit]; simp [hm])
                rw [hpkv]
                refine ⟨trim_idem k0, trim_idem v0, ?_, ?_, ?_, ?_, ?_⟩
                · exact fun hm => hk0 (mem_of_mem_trim k0 58 hm)
                · exact fun hm => hk10 (mem_of_mem_trim k0 10 hm)
                · exact fun hm => hv10 (mem_of_mem_trim v0 10 hm)
                · intro c hc
                  exact hmem_t ln hln_t c (by rw [hsplit]; simp [mem_of_mem_trim k0 c hc])
                · intro c hc
                  exact hmem_t ln hln_t c (by rw [hsplit]; simp [mem_of_mem_trim v0 c hc])
              · cases hcl : (getHdr (parseHeaderLines rest) (str2cp "Content-Length")).bind
                    parseU64 with
                | none =>
                  simp only [contentLen, hcl]
                | some len =>
                  simp only [contentLen, hcl]
                  by_cases hs : e + 4 < r.length
                  · rw [if_pos hs]
                    simpa using List.length_take_le len (r.drop (e + 4))
                  · rw [if_neg hs]
                    simp

theorem mem_reqLine_parts (a b d : List Nat) (c : Nat)
    (hc : c ∈ a ++ [32] ++ b ++ [32] ++ d) : c ∈ a ∨ c = 32 ∨ c ∈ b ∨ c ∈ d := by
  simp only [List.append_assoc, List.mem_append, List.mem_cons, List.not_mem_nil,
    or_false] at hc
  tauto

theorem mem_hdrLine_parts (a b : List Nat) (c : Nat)
    (hc : c ∈ a ++ [58, 32] ++ b) : c ∈ a ∨ c = 58 ∨ c = 32 ∨ c ∈ b := by
  simp only [List.append_assoc, List.mem_append, List.mem_cons, List.not_mem_nil,
    or_false] at hc
  tauto

theorem wf_roundtrip (q : HttpRequest) (hwf : WF q) :
    HttpRequest.parse q.to_bytes = some q := by
  obtain ⟨qm, qp, qv, qh, qb⟩ := q
  unfold WF at hwf
  obtain ⟨hm, hpne, hpc, hpb, hv, hh, hcl⟩ := hwf
  simp only at hm hpne hpc hpb hv hh hcl
  obtain ⟨hmne, hm10, hmws, hmsc⟩ := methodOk_props qm hm
  obtain ⟨hvne, hv10, hvws, hvsc⟩ := version_props qv hv
  have hlp : ∀ l ∈ linesSeq ⟨qm, qp, qv, qh, qb⟩, l ≠ [] ∧ 10 ∉ l := by
    intro l hl
    rw [linesSeq] at hl
    simp only [List.mem_cons, List.mem_map] at hl
    rcases hl with hl | ⟨p, hp, hpl⟩
    · subst hl
      rw [reqLine]
      constructor
      · simp
      · intro hmem
        rcases mem_reqLine_parts _ _ _ 10 hmem with h | h | h | h
        · exact hm10 h
        · omega
        · exact absurd (hpc 10 h).1 (by decide)
        · exact hv10 h
    · subst hpl
      rw [hdrLine]
      obtain ⟨h1, h2, h3, h4, h5, h6, h7⟩ := hh p hp
      constructor
      · simp
      · intro hmem
        rcases mem_hdrLine_parts _ _ 10 hmem with h | h | h | h
        · exact h4 h
        · omega
        · omega
        · exact h5 h
  have hscal : ∀ c ∈ joinCRLF (linesSeq ⟨qm, qp, qv, qh, qb⟩), Scalar c := by
    intro c hc
    rcases joinCRLF_mem _ c hc with ⟨l, hl, hcl2⟩ | hc13 | hc10
    · rw [linesSeq] at hl
      simp only [List.mem_cons, List.mem_map] at hl
      rcases hl with hl | ⟨p, hp, hpl⟩
      · subst hl
        rw [reqLine] at hcl2
        rcases mem_reqLine_parts _ _ _ c hcl2 with h | h | h | h
        · exact hmsc c h
        · subst h; decide
        · exact (hpc c h).2
        · exact hvsc c h
      · subst hpl
        rw [hdrLine] at hcl2
        obtain ⟨h1, h2, h3, h4, h5, h6, h7⟩ := hh p hp
        rcases mem_hdrLine_parts _ _ c hcl2 with h | h | h | h
        · exact h6 c h
        · subst h; decide
        · subst h; decide
        · exact h7 c h
    · subst hc13; decide
    · subst hc10; decide
  set E := utf8Encode (joinCRLF (linesSeq ⟨qm, qp, qv, qh, qb⟩)) with hE
  have hfind : findHdrEnd (HttpRequest.to_bytes ⟨qm, qp, qv, qh, qb⟩) = some E.length := by
    rw [to_bytes_shape, hE, utf8Encode_joinCRLF]
    rw [findHdrEnd_joinCRLF ((linesSeq ⟨qm, qp, qv, qh, qb⟩).map utf8Encode) qb
      (by simp [linesSeq]) (by
        intro bl hbl
        rw [List.mem_map] at hbl
        obtain ⟨l, hl, hbl2⟩ := hbl
        subst hbl2
        exact ⟨utf8Encode_ne_nil l (hlp l hl).1, utf8Encode_no10 l (hlp l hl).2⟩)]
    try rw [← utf8Encode_joinCRLF]
  have htake : (HttpRequest.to_bytes ⟨qm, qp, qv, qh, qb⟩).take E.length = E := by
    rw [to_bytes_shape, hE, List.append_assoc]
    exact List.take_left _ _
  have hdec : utf8Decode E = some (joinCRLF (linesSeq ⟨qm, qp, qv, qh, qb⟩)) := by
    rw [hE]
    exact utf8Decode_encode _ hscal
  have hlines2 : lines (joinCRLF (linesSeq ⟨qm, qp, qv, qh, qb⟩))
      = linesSeq ⟨qm, qp, qv, qh, qb⟩ :=
    lines_joinCRLF _ (by simp [linesSeq]) (fun l hl => (hlp l hl).2) (fun l hl => (hlp l hl).1)
  have hlen : (HttpRequest.to_bytes ⟨qm, qp, qv, qh, qb⟩).length = E.length + 4 + qb.length := by
    rw [to_bytes_shape, hE]
    simp only [List.append_assoc, List.length_append, List.length_cons, List.length_nil]
    omega
  have hdrop : (HttpRequest.to_bytes ⟨qm, qp, qv, qh, qb⟩).drop (E.length + 4) = qb := by
    rw [to_bytes_shape, hE]
    have h1 : (utf8Encode (joinCRLF (linesSeq ⟨qm, qp, qv, qh, qb⟩)) ++ [13, 10, 13, 10]).length
        = (utf8Encode (joinCRLF (linesSeq ⟨qm, qp, qv, qh, qb⟩))).length + 4 := by simp
    rw [← h1, List.drop_left]
  have hsw : splitWs (reqLine ⟨qm, qp, qv, qh, qb⟩) = [qm, qp, qv] := by
    rw [reqLine]
    rw [show (HttpRequest.mk qm qp qv qh qb).method ++ [32]
        ++ (HttpRequest.mk qm qp qv qh qb).path ++ [32]
        ++ (HttpRequest.mk qm qp qv qh qb).version
        = qm ++ 32 :: (qp ++ 32 :: qv) from by simp]
    rw [splitWs_token qm _ hmne hmws]
    rw [splitWs_token qp _ hpne (fun c hc => (hpc c hc).1)]
    rw [splitWs_single qv hvne hvws]
  have hph : parseHeaderLines (qh.map hdrLine) = qh :=
    parseHeaderLines_hdrLine qh
      (fun x hx => ⟨(hh x hx).1, (hh x hx).2.1, (hh x hx).2.2.1⟩)
  unfold HttpRequest.parse
  simp only [hfind]
  simp only [htake, hdec]
  simp only [hlines2]
  simp only [linesSeq]
  simp only [hsw]
  rw [if_neg (by simp)]
  rw [if_neg (by simp [hm])]
  rw [if_neg (by simp [hpb])]
  rw [if_neg (fun hc => hc hv)]
  simp only [hph]
  simp only [contentLen] at hcl
  cases hclv : (getHdr qh (str2cp "Content-Length")).bind parseU64 with
  | none =>
    simp only [hclv] at hcl ⊢
    rw [hcl]
  | some len =>
    simp only [hclv] at hcl ⊢
    by_cases hqb : qb = []
    · subst hqb
      rw [if_neg (by rw [hlen]; simp)]
    · rw [if_pos (by
        rw [hlen]
        have := List.length_pos.mpr hqb
        omega)]
      rw [hdrop, List.take_of_length_le hcl]

/-- C2: every byte string that HttpRequest.parse accepts round-trips through
the codec: serializing the parsed request with to_bytes and re-parsing yields
the same request, with the same method, path, version, body, and the same
header list with case and insertion order of keys preserved. -/
theorem request_roundtrip (r : List Nat) (q : HttpRequest)
    (h : HttpRequest.parse r = some q) :
    HttpRequest.parse q.to_bytes = some q :=
  wf_roundtrip q (parse_wf r q h)

theorem request_roundtrip_witness :
    HttpRequest.parse (str2cp "GET / HTTP/1.1\r\nHost: a\r\n\r\n")
      = some ⟨str2cp "GET", str2cp "/", str2cp "HTTP/1.1",
          [(str2cp "Host", str2cp "a")], []⟩ ∧
    HttpRequest.parse (HttpRequest.to_bytes ⟨str2cp "GET", str2cp "/", str2cp "HTTP/1.1",
          [(str2cp "Host", str2cp "a")], []⟩)
      = some ⟨str2cp "GET", str2cp "/", str2cp "HTTP/1.1",
          [(str2cp "Host", str2cp "a")], []⟩ :=
  ⟨by decide, request_roundtrip (str2cp "GET / HTTP/1.1\r\nHost: a\r\n\r\n") _ (by decide)⟩

end RProxy
